import Mathlib

/-!
Verification of the CopyCanvas vector drawing & history engine.

The TypeScript source is shallowly embedded: JavaScript numbers are
modelled as exact rationals (`ℚ`), JavaScript arrays as `List`,
`undefined`-able fields as `Option`, and stateful React hooks as explicit
state-passing functions. Comparisons of the form `Math.sqrt s ≤ t` are
embedded by the equivalent square-free condition `0 ≤ t ∧ s ≤ t ^ 2`
(valid since `Real.sqrt s ≤ t ↔ 0 ≤ t ∧ s ≤ t ^ 2` for `0 ≤ s`), keeping
every definition executable.
-/

namespace CopyCanvas

/-- Embeds `Point` from `src/types/canvas.ts`: `{x, y, pressure?}`. -/
structure Point where
  x : ℚ
  y : ℚ
  pressure : Option ℚ
deriving DecidableEq, Repr

instance : Inhabited Point := ⟨⟨0, 0, none⟩⟩

/-- Embeds the `type` field of `DrawObject`: `'stroke' | 'line' | 'rectangle' | 'circle'`. -/
inductive ObjType
  | stroke
  | line
  | rectangle
  | circle
deriving DecidableEq, Repr

/-- Embeds `PressureSensitivityOptions` from `src/types/canvas.ts`:
all three fields are optional (`enabled?`, `minScale?`, `maxScale?`). -/
structure PressureSensitivityOptions where
  enabled : Option Bool
  minScale : Option ℚ
  maxScale : Option ℚ
deriving DecidableEq, Repr

/-- Embeds `DrawObject` from `src/types/canvas.ts`, together with the
`pressureOptions` member attached by `useCanvasObjects.startObject`.
`fill` and `erase` are optional booleans in the TypeScript type. -/
structure DrawObject where
  id : String
  type : ObjType
  points : List Point
  color : String
  width : ℚ
  fill : Option Bool
  erase : Option Bool
  pressureOptions : Option PressureSensitivityOptions
deriving DecidableEq, Repr

/-- Embeds `calculatePressureWidth` from `src/utils/canvas.ts`:
clamp the pressure to `[0, 1]`, square it, interpolate the scale between
`minScale` and `maxScale`, and multiply by the base width. The TypeScript
default parameters (`minScale = 0.3`, `maxScale = 1.0`) are supplied
explicitly by callers in this embedding. -/
def calculatePressureWidth (baseWidth pressure minScale maxScale : ℚ) : ℚ :=
  let clampedPressure := max 0 (min 1 pressure)
  let easedPressure := clampedPressure * clampedPressure
  let scale := minScale + easedPressure * (maxScale - minScale)
  baseWidth * scale

/-- Embeds the state owned by `useCanvasObjects` (`src/hooks/canvas/useCanvasObjects.ts`):
the canonical object list (`objects`) and the mutable in-progress object
(`currentObjectRef`). -/
structure ObjectModelState where
  objects : List DrawObject
  current : Option DrawObject
deriving DecidableEq, Repr

/-- Embeds `startObject`: builds a fresh one-point object and installs it as
the in-progress object. The nondeterministic `crypto.randomUUID()` is passed
in as the `id` argument. -/
def startObject (st : ObjectModelState) (type : ObjType) (point : Point)
    (color : String) (width : ℚ) (erase : Bool)
    (pressureOptions : Option PressureSensitivityOptions) (id : String) :
    ObjectModelState :=
  { st with
    current := some
      { id := id
        type := type
        points := [point]
        color := color
        width := width
        fill := some false
        erase := some erase
        pressureOptions := pressureOptions } }

/-- Embeds `updateObject`: a no-op when nothing is in progress; appends the
point for strokes; otherwise keeps only `[points[0], point]`. Reading
`points[0]` is modelled by `List.headI` (the source invariant keeps
`points` nonempty, so the head exists wherever the operation is used). -/
def updateObject (st : ObjectModelState) (point : Point) : ObjectModelState :=
  match st.current with
  | none => st
  | some obj =>
    if obj.type = ObjType.stroke then
      { st with current := some { obj with points := obj.points ++ [point] } }
    else
      { st with current := some { obj with points := [obj.points.headI, point] } }

/-- Embeds `commitObject`: appends the in-progress object to the canonical
list and clears the in-progress slot; a no-op when nothing is in progress. -/
def commitObject (st : ObjectModelState) : ObjectModelState :=
  match st.current with
  | none => st
  | some obj => { objects := st.objects ++ [obj], current := none }

/-- Embeds the undo/redo state held by `App` (`src/App.tsx`): the `history`
stack, the `redoStack`, and the active page's current `dataUrl` (the
snapshot the canvas is showing). Side effects outside this state
(`localStorage`, clipboard copy) are not modelled. -/
structure AppHistoryState where
  history : List String
  redoStack : List String
  pageDataUrl : Option String
deriving DecidableEq, Repr

/-- The `App` mount state: empty history and redo stacks, no snapshot yet. -/
def initialHistoryState : AppHistoryState :=
  { history := [], redoStack := [], pageDataUrl := none }

/-- Embeds `pushSnapshot` from `src/App.tsx`: append the snapshot to
`history`, trimming to the newest 50 (`next.length > 50 ? next.slice(next.length - 50) : next`),
clear the redo stack, and record the snapshot on the active page. -/
def pushSnapshot (st : AppHistoryState) (dataUrl : String) : AppHistoryState :=
  let next := st.history ++ [dataUrl]
  { history := if next.length > 50 then next.drop (next.length - 50) else next
    redoStack := []
    pageDataUrl := some dataUrl }

/-- Embeds `handleUndo` from `src/App.tsx`: a no-op when
`history.length <= 1`; otherwise pop the top of `history` onto the redo
stack (capped at 50 by `slice(0, 50)`) and restore the new top. The
`match` on `getLast?` mirrors reading `history[history.length - 1]`,
which the guard proves to exist. -/
def handleUndo (st : AppHistoryState) : AppHistoryState :=
  if st.history.length ≤ 1 then st
  else
    let nextHistory := st.history.dropLast
    { history := nextHistory
      redoStack :=
        (match st.history.getLast? with
          | some nextRedo => nextRedo :: st.redoStack
          | none => st.redoStack).take 50
      pageDataUrl := nextHistory.getLast? }

/-- Embeds `handleRedo` from `src/App.tsx`: a no-op when the redo stack is
empty; otherwise pop its head, append it to `history` (kept to the newest
50 by `slice(-50)`), and restore it. -/
def handleRedo (st : AppHistoryState) : AppHistoryState :=
  match st.redoStack with
  | [] => st
  | next :: rest =>
    let h := st.history ++ [next]
    { history := h.drop (h.length - 50)
      redoStack := rest
      pageDataUrl := some next }

/-- Embeds `canUndo = history.length > 1` from `src/App.tsx`. -/
def canUndo (st : AppHistoryState) : Bool :=
  st.history.length > 1

/-- Embeds `canRedo = redoStack.length > 0` from `src/App.tsx`. -/
def canRedo (st : AppHistoryState) : Bool :=
  st.redoStack.length > 0

/-- A sequence of commits, applied left to right. -/
def pushAll (st : AppHistoryState) : List String → AppHistoryState
  | [] => st
  | d :: ds => pushAll (pushSnapshot st d) ds

/-- `handleUndo` iterated `n` times. -/
def undoN : Nat → AppHistoryState → AppHistoryState
  | 0, st => st
  | n + 1, st => undoN n (handleUndo st)

/-- `handleRedo` iterated `n` times. -/
def redoN : Nat → AppHistoryState → AppHistoryState
  | 0, st => st
  | n + 1, st => redoN n (handleRedo st)

/-- Decimal digit test on characters (codes 48–57). -/
def isDigitCh (c : Char) : Bool :=
  decide (48 ≤ c.toNat) && decide (c.toNat ≤ 57)

/-- The character for a decimal digit value. -/
def digitChar (d : Nat) : Char :=
  Char.ofNat (48 + d)

/-- The digit value of a character. -/
def digitVal (c : Char) : Nat :=
  c.toNat - 48

/-- Little-endian decimal digits of `n`, with explicit fuel (structural
recursion so that concrete evaluation reduces in the kernel). -/
def digitsL : Nat → Nat → List Nat
  | 0, _ => []
  | fuel + 1, n => if n = 0 then [] else n % 10 :: digitsL fuel (n / 10)

/-- Little-endian decimal digits of `n`. -/
def natDigits (n : Nat) : List Nat :=
  digitsL n n

/-- Big-endian decimal digit characters of `n` (empty for `0`). -/
def natDigitChars (n : Nat) : List Char :=
  ((natDigits n).map digitChar).reverse

/-- The numeric value of a big-endian digit-character string. -/
def digitsToNat (ds : List Char) : Nat :=
  ds.foldl (fun acc c => acc * 10 + digitVal c) 0

/-- Left-pad a digit string with zeros to the given length. -/
def padZeros (len : Nat) (ds : List Char) : List Char :=
  List.replicate (len - ds.length) '0' ++ ds

/-- The digit characters of the decimal numeral `m / 10^k` (with `k ≥ 1`
fraction digits): the digits of `m`, left-padded so at least one digit
precedes the decimal point, with `'.'` inserted `k` places from the end. -/
def renderMantissa (m k : Nat) : List Char :=
  let ds := padZeros (k + 1) (natDigitChars m)
  ds.take (ds.length - k) ++ '.' :: ds.drop (ds.length - k)

/-- A JS number is modelled as a rational whose serialized form is a
finite decimal. `q.den ∣ 10 ^ q.den` holds exactly when the reduced
denominator is of the form `2^a * 5^b`, i.e. when `q` has a finite
decimal expansion (every IEEE double does). -/
def decimalRatB (q : ℚ) : Bool :=
  decide (q.den ∣ 10 ^ q.den)

/-- JSON text of a finite-decimal rational: sign, then the decimal
numeral `m / 10^k` with `k = q.den` fraction digits, where
`m = q.num * (10^k / q.den)`. Faithful to `JSON.stringify`'s decimal
output on the `decimalRatB` values (the numeral denotes exactly `q`). -/
def renderQ (q : ℚ) : List Char :=
  let m : Int := q.num * ((10 ^ q.den / q.den : Nat) : Int)
  (if m < 0 then ['-'] else []) ++ renderMantissa m.natAbs q.den

/-- Parse a JSON number in the sign–digits–point–digits form produced by
`renderQ` (`JSON.parse` on this fragment yields the same numeric value). -/
def parseNumber (s : List Char) : Option (ℚ × List Char) :=
  let neg := s.head? = some '-'
  let s₁ := if s.head? = some '-' then s.tail else s
  let ip := s₁.takeWhile isDigitCh
  let s₂ := s₁.dropWhile isDigitCh
  if ip = [] then none
  else if s₂.head? = some '.' then
    let s₃ := s₂.tail
    let fp := s₃.takeWhile isDigitCh
    let s₄ := s₃.dropWhile isDigitCh
    if fp = [] then none
    else
      let mag : ℚ := (digitsToNat (ip ++ fp) : ℚ) / (10 : ℚ) ^ fp.length
      some (if neg then -mag else mag, s₄)
  else none

/-- Consume an exact literal from the front of the input, or fail. -/
def expects : List Char → List Char → Option (List Char)
  | [], s => some s
  | _ :: _, [] => none
  | c :: cs, d :: ds => if c = d then expects cs ds else none

/-- Characters that serialize verbatim inside a JSON string: no quote,
no backslash, no control character (`JSON.stringify` would escape those;
the canonical ids and colors never contain them). -/
def SafeChar (c : Char) : Bool :=
  decide (c ≠ '"') && decide (c ≠ '\\') && decide (32 ≤ c.toNat)

/-- All characters of a string are `SafeChar`. -/
def safeStringB (s : String) : Bool :=
  s.data.all SafeChar

/-- Scan the body of a JSON string up to the closing quote; fail on a
backslash (escape sequences are outside the safe subset), a control
character, or end of input. -/
def takeStringChars : List Char → Option (List Char × List Char)
  | [] => none
  | c :: cs =>
    if c = '"' then some ([], cs)
    else if c = '\\' then none
    else if c.toNat < 32 then none
    else
      match takeStringChars cs with
      | some (acc, rest) => some (c :: acc, rest)
      | none => none

/-- JSON text of a safe string. -/
def renderJString (str : String) : List Char :=
  '"' :: str.data ++ ['"']

/-- Parse a quoted JSON string (safe subset). -/
def parseJString (s : List Char) : Option (String × List Char) :=
  if s.head? = some '"' then
    match takeStringChars s.tail with
    | some (cs, rest) => some (String.mk cs, rest)
    | none => none
  else none

/-- JSON text of a boolean. -/
def renderBool (b : Bool) : List Char :=
  if b then ['t', 'r', 'u', 'e'] else ['f', 'a', 'l', 's', 'e']

/-- Parse a JSON boolean. -/
def parseBool (s : List Char) : Option (Bool × List Char) :=
  match expects ['t', 'r', 'u', 'e'] s with
  | some r => some (true, r)
  | none =>
    match expects ['f', 'a', 'l', 's', 'e'] s with
    | some r => some (false, r)
    | none => none

/-- JSON text of the `type` discriminator string. -/
def renderType : ObjType → List Char
  | ObjType.stroke => ['"', 's', 't', 'r', 'o', 'k', 'e', '"']
  | ObjType.line => ['"', 'l', 'i', 'n', 'e', '"']
  | ObjType.rectangle => ['"', 'r', 'e', 'c', 't', 'a', 'n', 'g', 'l', 'e', '"']
  | ObjType.circle => ['"', 'c', 'i', 'r', 'c', 'l', 'e', '"']

/-- Parse the `type` discriminator string. -/
def parseType (s : List Char) : Option (ObjType × List Char) :=
  match expects (renderType ObjType.stroke) s with
  | some r => some (ObjType.stroke, r)
  | none =>
    match expects (renderType ObjType.line) s with
    | some r => some (ObjType.line, r)
    | none =>
      match expects (renderType ObjType.rectangle) s with
      | some r => some (ObjType.rectangle, r)
      | none =>
        match expects (renderType ObjType.circle) s with
        | some r => some (ObjType.circle, r)
        | none => none

/-- The JSON key fragment `"key":`, preceded by a comma when an earlier
member of the same object has already been emitted (mirroring
`JSON.stringify`'s member separators with `undefined` members omitted). -/
def fieldKey (key : List Char) (seenAny : Bool) : List Char :=
  (if seenAny then [','] else []) ++ '"' :: (key ++ ['"', ':'])

/-- Try to parse an optional object member: if the input starts with the
member's key fragment, parse its value; otherwise leave the input
untouched. Returns the parsed value (if any), the updated
seen-a-member flag, and the remaining input. -/
def optField {α : Type} (key : List Char) (pv : List Char → Option (α × List Char))
    (seenAny : Bool) (s : List Char) : Option α × Bool × List Char :=
  match expects (fieldKey key seenAny) s with
  | some t =>
    match pv t with
    | some (v, r) => (some v, true, r)
    | none => (none, seenAny, s)
  | none => (none, seenAny, s)

/-- The text of an optional object member (empty when absent), plus the
updated seen-a-member flag. -/
def renderOptField {α : Type} (key : List Char) (rv : α → List Char)
    (v : Option α) (seenAny : Bool) : List Char × Bool :=
  match v with
  | some x => (fieldKey key seenAny ++ rv x, true)
  | none => ([], seenAny)

/-- JSON text of a `pressureOptions` object: the present members of
`enabled`, `minScale`, `maxScale`, in declaration order. -/
def renderPO (po : PressureSensitivityOptions) : List Char :=
  let f₁ := renderOptField ['e', 'n', 'a', 'b', 'l', 'e', 'd'] renderBool po.enabled false
  let f₂ := renderOptField ['m', 'i', 'n', 'S', 'c', 'a', 'l', 'e'] renderQ po.minScale f₁.2
  let f₃ := renderOptField ['m', 'a', 'x', 'S', 'c', 'a', 'l', 'e'] renderQ po.maxScale f₂.2
  '{' :: (f₁.1 ++ f₂.1 ++ f₃.1) ++ ['}']

/-- Parse a `pressureOptions` object in canonical member order. -/
def parsePO (s : List Char) : Option (PressureSensitivityOptions × List Char) :=
  if s.head? = some '{' then
    let t₁ := optField ['e', 'n', 'a', 'b', 'l', 'e', 'd'] parseBool false s.tail
    let t₂ := optField ['m', 'i', 'n', 'S', 'c', 'a', 'l', 'e'] parseNumber t₁.2.1 t₁.2.2
    let t₃ := optField ['m', 'a', 'x', 'S', 'c', 'a', 'l', 'e'] parseNumber t₂.2.1 t₂.2.2
    if t₃.2.2.head? = some '}' then
      some ({ enabled := t₁.1, minScale := t₂.1, maxScale := t₃.1 }, t₃.2.2.tail)
    else none
  else none

/-- JSON text of a `Point`: `x` and `y` always, `pressure` when present. -/
def renderPoint (p : Point) : List Char :=
  '{' :: fieldKey ['x'] false ++ renderQ p.x ++
    fieldKey ['y'] true ++ renderQ p.y ++
    (renderOptField ['p', 'r', 'e', 's', 's', 'u', 'r', 'e'] renderQ p.pressure true).1 ++ ['}']

/-- Parse a `Point` object in canonical member order. -/
def parsePoint (s : List Char) : Option (Point × List Char) := do
  let s₁ ← expects ('{' :: fieldKey ['x'] false) s
  let (xv, s₂) ← parseNumber s₁
  let s₃ ← expects (fieldKey ['y'] true) s₂
  let (yv, s₄) ← parseNumber s₃
  let t := optField ['p', 'r', 'e', 's', 's', 'u', 'r', 'e'] parseNumber true s₄
  if t.2.2.head? = some '}' then some ({ x := xv, y := yv, pressure := t.1 }, t.2.2.tail)
  else none

/-- The comma-separated element texts of a JSON array. -/
def sepElems {α : Type} (rElem : α → List Char) : List α → List Char
  | [] => []
  | [a] => rElem a
  | a :: b :: rest => rElem a ++ ',' :: sepElems rElem (b :: rest)

/-- JSON text of an array. -/
def renderArray {α : Type} (rElem : α → List Char) (l : List α) : List Char :=
  '[' :: sepElems rElem l ++ [']']

/-- Parse the elements of a nonempty JSON array body (after the `[`),
separated by commas and closed by `]`. Fuel bounds the element count. -/
def parseSepList {α : Type} (pElem : List Char → Option (α × List Char)) :
    Nat → List Char → Option (List α × List Char)
  | 0, _ => none
  | fuel + 1, s =>
    match pElem s with
    | some (v, r) =>
      if r.head? = some ',' then
        match parseSepList pElem fuel r.tail with
        | some (vs, rest) => some (v :: vs, rest)
        | none => none
      else if r.head? = some ']' then some ([v], r.tail)
      else none
    | none => none

/-- Parse a JSON array. -/
def parseArray {α : Type} (pElem : List Char → Option (α × List Char))
    (fuel : Nat) (s : List Char) : Option (List α × List Char) :=
  if s.head? = some '[' then
    if s.tail.head? = some ']' then some ([], s.tail.tail)
    else parseSepList pElem fuel s.tail
  else none

/-- JSON text of a `DrawObject`, exactly as `JSON.stringify` lays out an
object built by `startObject`: members in insertion order
(`id`, `type`, `points`, `color`, `width`, then the optional `fill`,
`erase`, `pressureOptions`), `undefined` members omitted. -/
def renderObjectJson (obj : DrawObject) : List Char :=
  '{' :: fieldKey ['i', 'd'] false ++ renderJString obj.id ++
    fieldKey ['t', 'y', 'p', 'e'] true ++ renderType obj.type ++
    fieldKey ['p', 'o', 'i', 'n', 't', 's'] true ++ renderArray renderPoint obj.points ++
    fieldKey ['c', 'o', 'l', 'o', 'r'] true ++ renderJString obj.color ++
    fieldKey ['w', 'i', 'd', 't', 'h'] true ++ renderQ obj.width ++
    (renderOptField ['f', 'i', 'l', 'l'] renderBool obj.fill true).1 ++
    (renderOptField ['e', 'r', 'a', 's', 'e'] renderBool obj.erase true).1 ++
    (renderOptField ['p', 'r', 'e', 's', 's', 'u', 'r', 'e', 'O', 'p', 't', 'i', 'o', 'n', 's']
      renderPO obj.pressureOptions true).1 ++ ['}']

/-- Parse a `DrawObject` in canonical member order. The fuel bounds the
length of the `points` array. -/
def parseObjectJson (fuel : Nat) (s : List Char) : Option (DrawObject × List Char) := do
  let s₁ ← expects ('{' :: fieldKey ['i', 'd'] false) s
  let (idv, s₂) ← parseJString s₁
  let s₃ ← expects (fieldKey ['t', 'y', 'p', 'e'] true) s₂
  let (tyv, s₄) ← parseType s₃
  let s₅ ← expects (fieldKey ['p', 'o', 'i', 'n', 't', 's'] true) s₄
  let (ptsv, s₆) ← parseArray parsePoint fuel s₅
  let s₇ ← expects (fieldKey ['c', 'o', 'l', 'o', 'r'] true) s₆
  let (colv, s₈) ← parseJString s₇
  let s₉ ← expects (fieldKey ['w', 'i', 'd', 't', 'h'] true) s₈
  let (wv, s₁₀) ← parseNumber s₉
  let t₁ := optField ['f', 'i', 'l', 'l'] parseBool true s₁₀
  let t₂ := optField ['e', 'r', 'a', 's', 'e'] parseBool true t₁.2.2
  let t₃ := optField ['p', 'r', 'e', 's', 's', 'u', 'r', 'e', 'O', 'p', 't', 'i', 'o', 'n', 's']
    parsePO true t₂.2.2
  if t₃.2.2.head? = some '}' then
    some ({ id := idv, type := tyv, points := ptsv, color := colv, width := wv,
            fill := t₁.1, erase := t₂.1, pressureOptions := t₃.1 }, t₃.2.2.tail)
  else none

/-- Embeds `serializeObjects` (src/hooks/canvas/useCanvasObjects.ts):
`JSON.stringify(objects)`, modelled by the canonical JSON text of the
object list. -/
def serializeObjects (objs : List DrawObject) : String :=
  String.mk (renderArray renderObjectJson objs)

/-- The `JSON.parse` + cast step of `deserializeObjects`: parse the JSON
text of a `DrawObject` array, requiring full consumption of the input;
`none` models a thrown `SyntaxError` (or a shape outside the schema). -/
def parseObjectsString (s : String) : Option (List DrawObject) :=
  match parseArray (parseObjectJson (s.data.length + 1)) (s.data.length + 1) s.data with
  | some (objs, []) => some objs
  | _ => none

/-- Embeds `deserializeObjects` (src/hooks/canvas/useCanvasObjects.ts):
`try { setObjects(JSON.parse(json)) } catch { setObjects([]) }` — the
parsed list on success, the empty list on any parse failure. Total: it
never raises to the caller. -/
def deserializeObjects (s : String) : List DrawObject :=
  (parseObjectsString s).getD []

/-- A JS number value whose optional slot, when present, is a finite
decimal. -/
def decimalOptB (o : Option ℚ) : Bool :=
  match o with
  | some q => decimalRatB q
  | none => true

/-- Validity of a canonical `Point`: finite-decimal coordinates and
pressure. -/
def validPointB (p : Point) : Bool :=
  decimalRatB p.x && decimalRatB p.y && decimalOptB p.pressure

/-- Validity of canonical `pressureOptions`: the snapshot captured at
creation time carries all three members (as the data model describes),
with finite-decimal scales. -/
def validPOB (po : PressureSensitivityOptions) : Bool :=
  po.enabled.isSome &&
    (match po.minScale with | some q => decimalRatB q | none => false) &&
    (match po.maxScale with | some q => decimalRatB q | none => false)

/-- Validity of a canonical `DrawObject` (as produced by `startObject`):
safe id and color strings, finite-decimal width, valid points, `fill`
and `erase` present, and a valid `pressureOptions` snapshot if any. -/
def validObjectB (obj : DrawObject) : Bool :=
  safeStringB obj.id && safeStringB obj.color && decimalRatB obj.width &&
    obj.points.all validPointB && obj.fill.isSome && obj.erase.isSome &&
    (match obj.pressureOptions with | some po => validPOB po | none => true)

/-- The head of a nonempty list, via the `Inhabited` default variant. -/
theorem headI_eq_head_of_ne_nil {α : Type} [Inhabited α] (l : List α) (h : l ≠ []) :
    l.headI = l.head h := by
  cases l with
  | nil => exact absurd rfl h
  | cons a t => rfl

/-- The newest `n` entries of a list (the suffix kept by the history
trimming `slice` calls). -/
def lastN (n : Nat) (l : List String) : List String :=
  l.drop (l.length - n)

/-- Embeds `HistoryEntry` from `src/utils/storage` as used by
`IndexedDBManager.saveHistory` / `cleanupHistory`: a per-page snapshot
with a store key `id` and an order `index`. -/
structure HistoryEntry where
  id : String
  pageId : String
  dataUrl : String
  timestamp : Nat
  index : Nat
deriving DecidableEq, Repr

/-- Embeds `IndexedDBManager.cleanupHistory` (src/utils/storage/indexedDB.ts),
viewed through `getHistory` (which returns the page's entries sorted by
`index`; the JS `sort` comparator `a.index - b.index` is a stable
ascending sort, modelled by `mergeSort`): when more than
`MAX_HISTORY_PER_PAGE = 50` entries exist, the oldest `length - 50`
(the sorted front) are deleted from the store by their `id`. The result
is the page's post-cleanup entry list in `getHistory` order. -/
def cleanupHistory (entries : List HistoryEntry) : List HistoryEntry :=
  let sorted := entries.mergeSort fun a b => a.index ≤ b.index
  if sorted.length > 50 then
    let toDelete := sorted.take (sorted.length - 50)
    sorted.filter fun e => !(toDelete.any fun d => d.id = e.id)
  else sorted

/-- The local `dot = A * C + B * D` of `isPointNearLine`
(src/hooks/canvas/useCanvasObjects.ts), with `A, B` the offset of the
query point from `lineStart` and `C, D` the segment vector. -/
def nearDot (p a b : Point) : ℚ :=
  (p.x - a.x) * (b.x - a.x) + (p.y - a.y) * (b.y - a.y)

/-- The local `lenSq = C * C + D * D` of `isPointNearLine`. -/
def nearLenSq (a b : Point) : ℚ :=
  (b.x - a.x) * (b.x - a.x) + (b.y - a.y) * (b.y - a.y)

/-- The local `param` of `isPointNearLine`: `dot / lenSq` when
`lenSq !== 0`, else `-1`. -/
def nearParam (p a b : Point) : ℚ :=
  if nearLenSq a b ≠ 0 then nearDot p a b / nearLenSq a b else -1

/-- The local `xx` of `isPointNearLine`: the x-coordinate of the nearest
point, selected by the `param < 0` / `param > 1` / otherwise branches. -/
def nearX (p a b : Point) : ℚ :=
  if nearParam p a b < 0 then a.x
  else if nearParam p a b > 1 then b.x
  else a.x + nearParam p a b * (b.x - a.x)

/-- The local `yy` of `isPointNearLine`. -/
def nearY (p a b : Point) : ℚ :=
  if nearParam p a b < 0 then a.y
  else if nearParam p a b > 1 then b.y
  else a.y + nearParam p a b * (b.y - a.y)

/-- Embeds `isPointNearLine` (src/hooks/canvas/useCanvasObjects.ts). The
JS tail is `Math.sqrt(dx * dx + dy * dy) <= threshold`; the square-root
comparison is embedded square-free as
`0 ≤ threshold ∧ dx² + dy² ≤ threshold²`, which is equivalent over the
reals since the radicand is nonnegative. -/
def isPointNearLine (p a b : Point) (threshold : ℚ) : Bool :=
  let dx := p.x - nearX p a b
  let dy := p.y - nearY p a b
  decide (0 ≤ threshold) && decide (dx * dx + dy * dy ≤ threshold * threshold)

/-- The stroke branch of the `findObjectAt` loop body: scan consecutive
point pairs `(points[j], points[j+1])` with `isPointNearLine`. -/
def anySegmentNear (point : Point) (pts : List Point) (threshold : ℚ) : Bool :=
  match pts with
  | p1 :: p2 :: rest =>
    isPointNearLine point p1 p2 threshold || anySegmentNear point (p2 :: rest) threshold
  | _ => false

/-- The per-object test of the `findObjectAt` loop body
(src/hooks/canvas/useCanvasObjects.ts): strokes scan their segments;
lines, rectangles and circles additionally require `points.length === 2`.
The circle branch's `Math.sqrt(distSq) <= Math.sqrt(radSq)` comparison is
embedded square-free as `distSq ≤ radSq` (square root is monotone). -/
def objectHit (obj : DrawObject) (point : Point) : Bool :=
  match obj.type with
  | ObjType.stroke => anySegmentNear point obj.points (obj.width / 2 + 5)
  | ObjType.line =>
    match obj.points with
    | [p1, p2] => isPointNearLine point p1 p2 (obj.width / 2 + 5)
    | _ => false
  | ObjType.rectangle =>
    match obj.points with
    | [p1, p2] =>
      let x := min p1.x p2.x
      let y := min p1.y p2.y
      let w := |p2.x - p1.x|
      let h := |p2.y - p1.y|
      decide (x ≤ point.x) && decide (point.x ≤ x + w) &&
        decide (y ≤ point.y) && decide (point.y ≤ y + h)
    | _ => false
  | ObjType.circle =>
    match obj.points with
    | [center, edge] =>
      decide ((point.x - center.x) ^ 2 + (point.y - center.y) ^ 2 ≤
        (edge.x - center.x) ^ 2 + (edge.y - center.y) ^ 2)
    | _ => false

/-- The reverse-order scan loop of `findObjectAt`
(`for (let i = objects.length - 1; i >= 0; i--)`, first hit wins). -/
def findFirstHit (objs : List DrawObject) (point : Point) : Option DrawObject :=
  match objs with
  | [] => none
  | o :: rest => if objectHit o point then some o else findFirstHit rest point

/-- Embeds `findObjectAt` (src/hooks/canvas/useCanvasObjects.ts): scan
the canonical list in reverse z-order and return the first hit object,
or `null` when none is hit. -/
def findObjectAt (objs : List DrawObject) (point : Point) : Option DrawObject :=
  findFirstHit objs.reverse point

/-- Specification-side clamped projection parameter for the
point-to-segment distance: `((p - a)·(b - a)) / |b - a|²` clamped to
`[0, 1]`. For a degenerate segment (`a` and `b` at the same coordinates)
the `ℚ` division by zero gives `0`, i.e. the segment's start point. -/
def segT (p a b : Point) : ℚ :=
  max 0 (min 1 (nearDot p a b / nearLenSq a b))

/-- Specification-side squared point-to-segment distance: the squared
distance from `p` to the point of the segment at parameter `segT`
(perpendicular foot clamped to the endpoints). -/
def segDistSq (p a b : Point) : ℚ :=
  (p.x - (a.x + segT p a b * (b.x - a.x))) ^ 2 +
    (p.y - (a.y + segT p a b * (b.y - a.y))) ^ 2

/-- Specification-side hit predicate, worded as the claim states it: a
stroke or line is hit iff the point lies within `width/2 + 5` of one of
its consecutive-pair segments (point-to-segment distance, compared
square-free); a rectangle iff the point is inside the min/max-normalized
bounding box; a circle iff the distance to the first (center) point is
at most the distance between the two defining points. -/
def hitSpec (obj : DrawObject) (point : Point) : Bool :=
  match obj.type with
  | ObjType.stroke =>
    (obj.points.zip obj.points.tail).any fun pr =>
      decide (segDistSq point pr.1 pr.2 ≤ (obj.width / 2 + 5) ^ 2)
  | ObjType.line =>
    (obj.points.zip obj.points.tail).any fun pr =>
      decide (segDistSq point pr.1 pr.2 ≤ (obj.width / 2 + 5) ^ 2)
  | ObjType.rectangle =>
    match obj.points with
    | [p1, p2] =>
      decide (min p1.x p2.x ≤ point.x ∧ point.x ≤ max p1.x p2.x ∧
        min p1.y p2.y ≤ point.y ∧ point.y ≤ max p1.y p2.y)
    | _ => false
  | ObjType.circle =>
    match obj.points with
    | [center, edge] =>
      decide ((point.x - center.x) ^ 2 + (point.y - center.y) ^ 2 ≤
        (edge.x - center.x) ^ 2 + (edge.y - center.y) ^ 2)
    | _ => false

/-- One drawing-surface command, mirroring one `ctx` call issued by
`renderObjects` (src/hooks/canvas/useCanvasObjects.ts). `strokePath` is
`ctx.stroke()`; `arcSq` carries the squared radius of a circle-object
`ctx.arc` call (the surface receives its square root). -/
inductive RenderCmd
  | setComposite (erase : Bool)
  | setStrokeStyle (c : String)
  | setFillStyle (c : String)
  | setLineWidth (w : ℚ)
  | setLineCap
  | setLineJoin
  | beginPath
  | arc (x y r : ℚ)
  | arcSq (x y rSq : ℚ)
  | fill
  | moveTo (x y : ℚ)
  | quadraticCurveTo (cx cy x y : ℚ)
  | lineTo (x y : ℚ)
  | rect (x y w h : ℚ)
  | strokePath
  | save
  | restore
deriving DecidableEq, Repr

/-- JS truthiness of an optional boolean field (`undefined` is falsy). -/
def truthy (b : Option Bool) : Bool :=
  b.getD false

/-- The `isPressureEnabled = options?.enabled` test of the stroke branch. -/
def isPressureEnabled (obj : DrawObject) : Bool :=
  match obj.pressureOptions with
  | some opts => opts.enabled.getD false
  | none => false

/-- `options.minScale` as received by `calculatePressureWidth`: an
`undefined` member triggers the TypeScript default parameter `0.3`. -/
def optMinScale (o : Option PressureSensitivityOptions) : ℚ :=
  match o with
  | some opts => opts.minScale.getD (3/10)
  | none => 3/10

/-- `options.maxScale` with its default parameter `1.0`. -/
def optMaxScale (o : Option PressureSensitivityOptions) : ℚ :=
  match o with
  | some opts => opts.maxScale.getD 1
  | none => 1

/-- The multi-point stroke smoothing loop of `renderObjects` plus its
final straight segment: starting from the previous midpoint
`(prevX, prevY)`, each step strokes a quadratic through the current point
to the midpoint of the current and next points at that point's eased
width; the last point is joined by a straight `lineTo`. -/
def strokeSegCmds (w : ℚ) (pe : Bool) (mn mx : ℚ) :
    ℚ → ℚ → List Point → List RenderCmd
  | prevX, prevY, curr :: next :: more =>
    let pressure := curr.pressure.getD (1/2)
    let lw := if pe then calculatePressureWidth w pressure mn mx else w
    let xc := (curr.x + next.x) / 2
    let yc := (curr.y + next.y) / 2
    [RenderCmd.setLineWidth lw, RenderCmd.beginPath, RenderCmd.moveTo prevX prevY,
      RenderCmd.quadraticCurveTo curr.x curr.y xc yc, RenderCmd.strokePath]
      ++ strokeSegCmds w pe mn mx xc yc (next :: more)
  | prevX, prevY, [last] =>
    let lw := if pe then calculatePressureWidth w (last.pressure.getD (1/2)) mn mx else w
    [RenderCmd.setLineWidth lw, RenderCmd.beginPath, RenderCmd.moveTo prevX prevY,
      RenderCmd.lineTo last.x last.y, RenderCmd.strokePath]
  | _, _, [] => []

/-- Embeds the per-object body of the `renderObjects` forEach
(src/hooks/canvas/useCanvasObjects.ts): six context-setup assignments,
then the per-kind drawing commands. The stroke branch reproduces the
source exactly: the early `if (obj.points.length < 2) return;` comes
first, and the single-point disc block (`if (obj.points.length === 1)`)
sits below it in the source, hence in the model's else-branch. -/
def renderObjectCmds (obj : DrawObject) : List RenderCmd :=
  [RenderCmd.setComposite (truthy obj.erase),
   RenderCmd.setStrokeStyle (if truthy obj.erase then "#000000" else obj.color),
   RenderCmd.setFillStyle (if truthy obj.erase then "#000000" else obj.color),
   RenderCmd.setLineWidth obj.width, RenderCmd.setLineCap, RenderCmd.setLineJoin] ++
  match obj.type with
  | ObjType.stroke =>
    if obj.points.length < 2 then []
    else if obj.points.length = 1 then
      match obj.points with
      | p :: _ =>
        let pressure := p.pressure.getD (1/2)
        let w := if isPressureEnabled obj then
            calculatePressureWidth obj.width pressure
              (optMinScale obj.pressureOptions) (optMaxScale obj.pressureOptions)
          else obj.width
        [RenderCmd.beginPath, RenderCmd.arc p.x p.y (w / 2), RenderCmd.fill]
      | [] => []
    else
      match obj.points with
      | p0 :: rest =>
        strokeSegCmds obj.width (isPressureEnabled obj)
          (optMinScale obj.pressureOptions) (optMaxScale obj.pressureOptions)
          p0.x p0.y rest
      | [] => []
  | ObjType.line =>
    match obj.points with
    | p1 :: p2 :: _ =>
      [RenderCmd.beginPath, RenderCmd.moveTo p1.x p1.y,
       RenderCmd.lineTo p2.x p2.y, RenderCmd.strokePath]
    | _ => []
  | ObjType.rectangle =>
    match obj.points with
    | p1 :: p2 :: _ =>
      [RenderCmd.beginPath,
       RenderCmd.rect (min p1.x p2.x) (min p1.y p2.y) |p2.x - p1.x| |p2.y - p1.y|] ++
      (if truthy obj.fill then [RenderCmd.fill] else []) ++ [RenderCmd.strokePath]
    | _ => []
  | ObjType.circle =>
    match obj.points with
    | center :: edge :: _ =>
      [RenderCmd.beginPath,
       RenderCmd.arcSq center.x center.y
         ((edge.x - center.x) ^ 2 + (edge.y - center.y) ^ 2)] ++
      (if truthy obj.fill then [RenderCmd.fill] else []) ++ [RenderCmd.strokePath]
    | _ => []

/-- Embeds `renderObjects`: `ctx.save()`, the canonical list (plus the
in-progress object when `includePreview` is set and one exists) rendered
in order, then `ctx.restore()`. -/
def renderObjectsCmds (objs : List DrawObject) (current : Option DrawObject)
    (includePreview : Bool) : List RenderCmd :=
  let objectsToRender :=
    match includePreview, current with
    | true, some c => objs ++ [c]
    | _, _ => objs
  RenderCmd.save :: objectsToRender.flatMap renderObjectCmds ++ [RenderCmd.restore]

/-- C2. Pressure easing: `calculatePressureWidth` equals
`baseWidth * (minScale + p² * (maxScale - minScale))` with `p` the
pressure clamped to `[0, 1]`; concretely the values `(10, 0, 0.3, 1.0)`,
`(10, 1, 0.3, 1.0)` and `(10, 0.5, 0.3, 1.0)` give `3.0`, `10.0` and
`4.75`. -/
theorem claim_C2 :
    (∀ baseWidth pressure minScale maxScale : ℚ,
      calculatePressureWidth baseWidth pressure minScale maxScale =
        baseWidth * (minScale + (max 0 (min 1 pressure)) ^ 2 * (maxScale - minScale)))
    ∧ calculatePressureWidth 10 0 (3/10) 1 = 3
    ∧ calculatePressureWidth 10 1 (3/10) 1 = 10
    ∧ calculatePressureWidth 10 (1/2) (3/10) 1 = 19/4 := by
  refine ⟨fun baseWidth pressure minScale maxScale => ?_, by norm_num [calculatePressureWidth],
    by norm_num [calculatePressureWidth], by norm_num [calculatePressureWidth]⟩
  simp only [calculatePressureWidth]
  ring

/-- C10. Pressure-width bounds and monotonicity: for `baseWidth ≥ 0` and
`0 ≤ minScale ≤ maxScale`, the eased width lies in
`[baseWidth * minScale, baseWidth * maxScale]` for every pressure, and is
monotone nondecreasing in the pressure argument. -/
theorem claim_C10 (baseWidth p q minScale maxScale : ℚ)
    (hb : 0 ≤ baseWidth) (hmn : 0 ≤ minScale) (hmm : minScale ≤ maxScale) :
    baseWidth * minScale ≤ calculatePressureWidth baseWidth p minScale maxScale
    ∧ calculatePressureWidth baseWidth p minScale maxScale ≤ baseWidth * maxScale
    ∧ (p ≤ q →
        calculatePressureWidth baseWidth p minScale maxScale ≤
        calculatePressureWidth baseWidth q minScale maxScale) := by
  have hclamp : ∀ r : ℚ, 0 ≤ max 0 (min 1 r) ∧ max 0 (min 1 r) ≤ 1 := by
    intro r
    constructor
    · exact le_max_left 0 _
    · exact max_le (by norm_num) (min_le_left 1 r)
  simp only [calculatePressureWidth]
  obtain ⟨hp0, hp1⟩ := hclamp p
  obtain ⟨hq0, hq1⟩ := hclamp q
  have hsub : (0 : ℚ) ≤ maxScale - minScale := sub_nonneg.2 hmm
  refine ⟨?_, ?_, ?_⟩
  · have h1 : 0 ≤ max 0 (min 1 p) * max 0 (min 1 p) * (maxScale - minScale) :=
      mul_nonneg (mul_nonneg hp0 hp0) hsub
    exact mul_le_mul_of_nonneg_left (le_add_of_nonneg_right h1) hb
  · have h1 : max 0 (min 1 p) * max 0 (min 1 p) * (maxScale - minScale) ≤ maxScale - minScale := by
      have hsq1 : max 0 (min 1 p) * max 0 (min 1 p) ≤ 1 := by nlinarith
      nlinarith
    have h2 : minScale + max 0 (min 1 p) * max 0 (min 1 p) * (maxScale - minScale) ≤ maxScale := by
      linarith
    exact mul_le_mul_of_nonneg_left h2 hb
  · intro hpq
    have hmono : max 0 (min 1 p) ≤ max 0 (min 1 q) :=
      max_le_max le_rfl (min_le_min le_rfl hpq)
    have hsq : max 0 (min 1 p) * max 0 (min 1 p) ≤ max 0 (min 1 q) * max 0 (min 1 q) :=
      mul_le_mul hmono hmono hp0 hq0
    have h2 : minScale + max 0 (min 1 p) * max 0 (min 1 p) * (maxScale - minScale) ≤
        minScale + max 0 (min 1 q) * max 0 (min 1 q) * (maxScale - minScale) := by
      have := mul_le_mul_of_nonneg_right hsq hsub
      linarith
    exact mul_le_mul_of_nonneg_left h2 hb

/-- C5. Redo invalidation: every `pushSnapshot` leaves the redo stack
empty, whatever it contained before, so `canRedo` is false right after
any new commit. -/
theorem claim_C5 :
    ∀ (st : AppHistoryState) (dataUrl : String),
      (pushSnapshot st dataUrl).redoStack = [] ∧ canRedo (pushSnapshot st dataUrl) = false := by
  intro st dataUrl
  exact ⟨rfl, rfl⟩

/-- C9. `updateObject` contract: with a stroke in progress it appends the
point; with a shape in progress it replaces the points with
`[firstPoint, point]`; with nothing in progress it is a no-op on both the
in-progress slot and the canonical list; consequently an in-progress
non-stroke object has at most 2 points after any `updateObject`, and
exactly 1 point right after `startObject`. -/
theorem claim_C9 :
    (∀ (st : ObjectModelState) (p : Point) (obj : DrawObject),
      st.current = some obj → obj.type = ObjType.stroke →
        (updateObject st p).current = some { obj with points := obj.points ++ [p] }
        ∧ (updateObject st p).objects = st.objects)
    ∧ (∀ (st : ObjectModelState) (p : Point) (obj : DrawObject) (h : obj.points ≠ []),
      st.current = some obj → obj.type ≠ ObjType.stroke →
        (updateObject st p).current = some { obj with points := [obj.points.head h, p] }
        ∧ (updateObject st p).objects = st.objects)
    ∧ (∀ (st : ObjectModelState) (p : Point),
      st.current = none → updateObject st p = st)
    ∧ (∀ (st : ObjectModelState) (p : Point) (obj : DrawObject),
      (updateObject st p).current = some obj → obj.type ≠ ObjType.stroke →
        obj.points.length ≤ 2)
    ∧ (∀ (st : ObjectModelState) (type : ObjType) (point : Point) (color : String)
        (width : ℚ) (erase : Bool) (popts : Option PressureSensitivityOptions)
        (id : String) (obj : DrawObject),
      (startObject st type point color width erase popts id).current = some obj →
        obj.points.length = 1) := by
  refine ⟨?_, ?_, ?_, ?_, ?_⟩
  · intro st p obj hcur htype
    simp [updateObject, hcur, htype]
  · intro st p obj h hcur htype
    simp [updateObject, hcur, htype, headI_eq_head_of_ne_nil obj.points h]
  · intro st p hcur
    simp [updateObject, hcur]
  · intro st p obj hcur htype
    cases hc : st.current with
    | none => simp [updateObject, hc] at hcur
    | some o =>
      by_cases ho : o.type = ObjType.stroke
      · simp [updateObject, hc, ho] at hcur
        subst hcur
        simp [ho] at htype
      · simp [updateObject, hc, ho] at hcur
        subst hcur
        simp
  · intro st type point color width erase popts id obj hcur
    simp [startObject] at hcur
    cases hcur
    simp

/-- Witness for C10 at `baseWidth = 10`, pressures `0 ≤ 1`, scales `0.3 ≤ 1`. -/
theorem claim_C10_w :
    10 * (3/10 : ℚ) ≤ calculatePressureWidth 10 0 (3/10) 1
    ∧ calculatePressureWidth 10 0 (3/10) 1 ≤ 10 * 1
    ∧ ((0 : ℚ) ≤ 1 →
        calculatePressureWidth 10 0 (3/10) 1 ≤ calculatePressureWidth 10 1 (3/10) 1) :=
  claim_C10 10 0 1 (3/10) 1 (by norm_num) (by norm_num) (by norm_num)

/-- Witness for C9: `updateObject` at a state with nothing in progress. -/
theorem claim_C9_w :
    updateObject { objects := [], current := none } { x := 1, y := 2, pressure := none } =
      { objects := [], current := none } :=
  claim_C9.2.2.1 { objects := [], current := none } { x := 1, y := 2, pressure := none } rfl

theorem lastN_length_le (n : Nat) (l : List String) : (lastN n l).length ≤ n := by
  simp only [lastN, List.length_drop]
  omega

theorem lastN_of_length_le {n : Nat} {l : List String} (h : l.length ≤ n) : lastN n l = l := by
  have : l.length - n = 0 := by omega
  simp [lastN, this]

theorem pushSnapshot_history_eq (st : AppHistoryState) (d : String) :
    (pushSnapshot st d).history = lastN 50 (st.history ++ [d]) := by
  simp only [pushSnapshot, lastN]
  by_cases h : (st.history ++ [d]).length > 50
  · rw [if_pos h]
  · rw [if_neg h]
    have h0 : (st.history ++ [d]).length - 50 = 0 := by omega
    rw [h0, List.drop_zero]

theorem lastN_append (n : Nat) (l l' : List String) :
    lastN n (lastN n l ++ l') = lastN n (l ++ l') := by
  have hk : l.length - n ≤ l.length := Nat.sub_le _ _
  simp only [lastN]
  rw [← List.drop_append_of_le_length hk, List.drop_drop]
  congr 1
  simp only [List.length_append, List.length_drop]
  omega

theorem pushAll_history (c : List String) :
    ∀ st : AppHistoryState, st.history.length ≤ 50 →
      (pushAll st c).history = lastN 50 (st.history ++ c) := by
  induction c with
  | nil =>
    intro st h
    simp only [pushAll, List.append_nil]
    exact (lastN_of_length_le h).symm
  | cons d ds ih =>
    intro st h
    show (pushAll (pushSnapshot st d) ds).history = _
    rw [ih (pushSnapshot st d) (by rw [pushSnapshot_history_eq]; exact lastN_length_le _ _)]
    rw [pushSnapshot_history_eq, lastN_append]
    simp

theorem pushAll_tail (c : List String) (hc : c ≠ []) :
    ∀ st : AppHistoryState,
      (pushAll st c).redoStack = [] ∧ (pushAll st c).pageDataUrl = c.getLast? := by
  induction c with
  | nil => exact absurd rfl hc
  | cons d ds ih =>
    intro st
    cases hds : ds with
    | nil => subst hds; exact ⟨rfl, rfl⟩
    | cons e es =>
      have hne : ds ≠ [] := by rw [hds]; exact List.cons_ne_nil _ _
      subst hds
      obtain ⟨h1, h2⟩ := ih (List.cons_ne_nil _ _) (pushSnapshot st d)
      exact ⟨h1, h2⟩

theorem pushAll_init (c : List String) (hne : c ≠ []) (h50 : c.length ≤ 50) :
    pushAll initialHistoryState c =
      { history := c, redoStack := [], pageDataUrl := c.getLast? } := by
  obtain ⟨hr, hp⟩ := pushAll_tail c hne initialHistoryState
  have hh := pushAll_history c initialHistoryState (by simp [initialHistoryState])
  rw [show initialHistoryState.history = [] from rfl, List.nil_append,
    lastN_of_length_le h50] at hh
  cases hst : pushAll initialHistoryState c with
  | mk h r p =>
    rw [hst] at hh hr hp
    simp only at hh hr hp
    simp [hh, hr, hp]

theorem undoN_succ_outer (k : Nat) :
    ∀ st : AppHistoryState, undoN (k + 1) st = handleUndo (undoN k st) := by
  induction k with
  | zero => intro st; rfl
  | succ k ih =>
    intro st
    show undoN (k + 1) (handleUndo st) = _
    rw [ih (handleUndo st)]
    rfl

theorem handleUndo_concat (l : List String) (g : String) (r : List String)
    (p : Option String) (hl : l ≠ []) (hr : r.length ≤ 49) :
    handleUndo { history := l ++ [g], redoStack := r, pageDataUrl := p } =
      { history := l, redoStack := g :: r, pageDataUrl := l.getLast? } := by
  have hpos : 0 < l.length := List.length_pos.2 hl
  unfold handleUndo
  rw [if_neg (by simp only [List.length_append, List.length_cons, List.length_nil]; omega)]
  simp only [List.getLast?_concat, List.dropLast_concat]
  rw [List.take_of_length_le (by simp only [List.length_cons]; omega)]

theorem undo_redo_pair (st : AppHistoryState)
    (hpage : st.pageDataUrl = st.history.getLast?)
    (hlen2 : 2 ≤ st.history.length) (hlen50 : st.history.length ≤ 50)
    (hredo : st.redoStack.length ≤ 49) :
    handleRedo (handleUndo st) = st := by
  have hne : st.history ≠ [] := by
    intro h; rw [h] at hlen2; simp at hlen2
  obtain ⟨l, g, hlg⟩ : ∃ l g, st.history = l ++ [g] :=
    ⟨st.history.dropLast, st.history.getLast hne, (List.dropLast_append_getLast hne).symm⟩
  have hl : l ≠ [] := by
    intro h
    rw [hlg, h] at hlen2
    simp at hlen2
  cases st with
  | mk h r p =>
    simp only at hlg hpage hlen50 hredo
    subst hlg
    rw [handleUndo_concat l g r p hl hredo]
    simp only [handleRedo]
    have h0 : (l ++ [g]).length - 50 = 0 := by
      simp only [List.length_append, List.length_cons, List.length_nil]
      simp only [List.length_append, List.length_cons, List.length_nil] at hlen50
      omega
    rw [h0, List.drop_zero]
    rw [List.getLast?_concat] at hpage
    rw [hpage]

theorem undoN_char (k : Nat) :
    ∀ st : AppHistoryState,
      st.pageDataUrl = st.history.getLast? →
      k + 1 ≤ st.history.length →
      st.redoStack.length + k ≤ 50 →
      undoN k st =
        { history := st.history.take (st.history.length - k)
          redoStack := st.history.drop (st.history.length - k) ++ st.redoStack
          pageDataUrl := (st.history.take (st.history.length - k)).getLast? } := by
  induction k with
  | zero =>
    intro st hpage _ _
    simp only [undoN, Nat.sub_zero, List.take_length, List.drop_length, List.nil_append]
    cases st
    simp_all
  | succ k ih =>
    intro st hpage hlen hredo
    have hlen2 : 2 ≤ st.history.length := by omega
    have hne : st.history ≠ [] := by
      intro h; rw [h] at hlen2; simp at hlen2
    obtain ⟨l, g, hlg⟩ : ∃ l g, st.history = l ++ [g] :=
      ⟨st.history.dropLast, st.history.getLast hne, (List.dropLast_append_getLast hne).symm⟩
    have hl : l ≠ [] := by
      intro h
      rw [hlg, h] at hlen2
      simp at hlen2
    cases st with
    | mk h r p =>
      simp only at hlg hpage hlen hredo
      subst hlg
      have hlenl : (l ++ [g]).length = l.length + 1 := by simp
      rw [hlenl] at hlen
      show undoN k (handleUndo _) = _
      rw [handleUndo_concat l g r p hl (by omega)]
      rw [ih { history := l, redoStack := g :: r, pageDataUrl := l.getLast? } rfl
        (by simp only; omega)
        (by simp only [List.length_cons]; omega)]
      have htake : (l ++ [g]).take ((l ++ [g]).length - (k + 1)) = l.take (l.length - k) := by
        rw [hlenl, List.take_append_of_le_length (by omega)]
        congr 1
        omega
      have hdrop : (l ++ [g]).drop ((l ++ [g]).length - (k + 1)) = l.drop (l.length - k) ++ [g] := by
        rw [hlenl, List.drop_append_of_le_length (by omega)]
        congr 2
        omega
      simp only [AppHistoryState.mk.injEq]
      refine ⟨htake.symm, ?_, by rw [htake]⟩
      rw [hdrop]
      simp

theorem redoN_undoN_cancel (k : Nat) :
    ∀ st : AppHistoryState,
      st.pageDataUrl = st.history.getLast? →
      k + 1 ≤ st.history.length →
      st.history.length ≤ 50 →
      st.redoStack.length + k ≤ 50 →
      redoN k (undoN k st) = st := by
  induction k with
  | zero => intro st _ _ _ _; rfl
  | succ k ih =>
    intro st hpage hlen h50 hredo
    have hchar := undoN_char k st hpage (by omega) (by omega)
    have hpair : handleRedo (handleUndo (undoN k st)) = undoN k st := by
      apply undo_redo_pair
      · rw [hchar]
      · rw [hchar]; simp only [List.length_take]; omega
      · rw [hchar]; simp only [List.length_take]; omega
      · rw [hchar]; simp only [List.length_append, List.length_drop]; omega
    calc redoN (k + 1) (undoN (k + 1) st)
        = redoN k (handleRedo (undoN (k + 1) st)) := rfl
      _ = redoN k (handleRedo (handleUndo (undoN k st))) := by rw [undoN_succ_outer]
      _ = redoN k (undoN k st) := by rw [hpair]
      _ = st := ih st hpage (by omega) h50 (by omega)

/-- C1 counterexample. The claim fails as stated at an intermediate point
of the 2-commit scenario: after committing "a" then "b" and undoing once,
the pair `handleUndo(); handleRedo()` changes the state (the undo is a
no-op on a 1-entry history, and the redo then fires). -/
theorem claim_C1_cex :
    handleRedo (handleUndo (handleUndo (pushSnapshot (pushSnapshot initialHistoryState "a") "b"))) ≠
      handleUndo (pushSnapshot (pushSnapshot initialHistoryState "a") "b") := by
  decide

/-- C1 (amended). For `n ≤ 50` commits pushed onto the fresh state,
`handleUndo` applied `n-1` times then `handleRedo` applied `n-1` times
restores the history stack, redo stack, and current snapshot exactly;
and at every state at which undo is still possible (undo stack holding
at least 2 entries, and, as at every intermediate point of the scenario,
at most 50 entries with at most 49 redo entries and the current snapshot
on top of the history stack), the pair `handleUndo(); handleRedo()`
leaves the state unchanged. At the fully-undone intermediate point
(1-entry history) the pair instead acts as a single redo. -/
theorem claim_C1_amended :
    (∀ commits : List String, commits ≠ [] → commits.length ≤ 50 →
      redoN (commits.length - 1) (undoN (commits.length - 1) (pushAll initialHistoryState commits)) =
        pushAll initialHistoryState commits)
    ∧ (∀ st : AppHistoryState,
        st.pageDataUrl = st.history.getLast? →
        2 ≤ st.history.length →
        st.history.length ≤ 50 →
        st.redoStack.length ≤ 49 →
        handleRedo (handleUndo st) = st) := by
  constructor
  · intro c hne h50
    have hpos : 0 < c.length := List.length_pos.2 hne
    rw [pushAll_init c hne h50]
    apply redoN_undoN_cancel
    · rfl
    · simp only; omega
    · exact h50
    · simp only [List.length_nil]; omega
  · intro st h1 h2 h3 h4
    exact undo_redo_pair st h1 h2 h3 h4

/-- Witness for the C1 amended theorem at the concrete 2-commit scenario. -/
theorem claim_C1_amended_w :
    redoN ((["a", "b"] : List String).length - 1)
        (undoN ((["a", "b"] : List String).length - 1)
          (pushAll initialHistoryState ["a", "b"])) =
      pushAll initialHistoryState ["a", "b"]
    ∧ handleRedo (handleUndo (pushAll initialHistoryState ["a", "b"])) =
        pushAll initialHistoryState ["a", "b"] :=
  ⟨claim_C1_amended.1 ["a", "b"] (by decide) (by decide),
   claim_C1_amended.2 (pushAll initialHistoryState ["a", "b"])
     (by decide) (by decide) (by decide) (by decide)⟩

theorem filter_split {α : Type} (p : α → Bool) (l : List α) (k : Nat)
    (h1 : ∀ e ∈ l.take k, p e = false) (h2 : ∀ e ∈ l.drop k, p e = true) :
    l.filter p = l.drop k := by
  calc l.filter p = (l.take k ++ l.drop k).filter p := by rw [List.take_append_drop]
    _ = (l.take k).filter p ++ (l.drop k).filter p := by rw [List.filter_append]
    _ = [] ++ l.drop k := by
        rw [List.filter_eq_nil_iff.mpr fun a ha => by simp [h1 a ha],
          List.filter_eq_self.mpr h2]
    _ = l.drop k := List.nil_append _

theorem filter_not_id_mem_take {l : List HistoryEntry} (k : Nat)
    (h : (l.map HistoryEntry.id).Nodup) :
    (l.filter fun e => !((l.take k).any fun d => d.id = e.id)) = l.drop k := by
  rw [← List.take_append_drop k l] at h
  rw [List.map_append, List.nodup_append] at h
  apply filter_split
  · intro e he
    simp only [Bool.not_eq_false', List.any_eq_true, decide_eq_true_eq]
    exact ⟨e, he, rfl⟩
  · intro e he
    simp only [Bool.not_eq_true', List.any_eq_false, decide_eq_true_eq]
    intro d hd hid
    exact h.2.2 (List.mem_map_of_mem HistoryEntry.id hd)
      (hid ▸ List.mem_map_of_mem HistoryEntry.id he)

/-- C4. History bound: the undo stack length stays at most 50 across
`pushSnapshot`, `handleUndo` and `handleRedo`; after more than 50 commits
from the fresh state the undo stack holds exactly the 50 most recent
commits, in commit order (so the oldest survivor is the 50th-from-last);
and `cleanupHistory` leaves the persisted store with at most 50 entries
per page, namely the newest 50 in index order. -/
theorem claim_C4 :
    (∀ st : AppHistoryState, st.history.length ≤ 50 →
      (∀ d, (pushSnapshot st d).history.length ≤ 50)
      ∧ (handleUndo st).history.length ≤ 50
      ∧ (handleRedo st).history.length ≤ 50)
    ∧ (∀ commits : List String, 50 < commits.length →
        (pushAll initialHistoryState commits).history =
          commits.drop (commits.length - 50)
        ∧ (pushAll initialHistoryState commits).history.length = 50)
    ∧ (∀ entries : List HistoryEntry, (entries.map HistoryEntry.id).Nodup →
        (cleanupHistory entries).length ≤ 50
        ∧ cleanupHistory entries =
            (entries.mergeSort fun a b => a.index ≤ b.index).drop
              ((entries.mergeSort fun a b => a.index ≤ b.index).length - 50)) := by
  refine ⟨?_, ?_, ?_⟩
  · intro st h
    refine ⟨?_, ?_, ?_⟩
    · intro d
      rw [pushSnapshot_history_eq]
      exact lastN_length_le _ _
    · unfold handleUndo
      by_cases hg : st.history.length ≤ 1
      · rw [if_pos hg]; exact h
      · rw [if_neg hg]
        simp only [List.length_dropLast]
        omega
    · unfold handleRedo
      cases hr : st.redoStack with
      | nil => exact h
      | cons x rest =>
        simp only [List.length_drop, List.length_append, List.length_cons, List.length_nil]
        omega
  · intro commits hgt
    have hh := pushAll_history commits initialHistoryState (by simp [initialHistoryState])
    rw [show initialHistoryState.history = [] from rfl, List.nil_append] at hh
    rw [hh]
    simp only [lastN, List.length_drop]
    exact ⟨by trivial, by omega⟩
  · intro entries hnodup
    have hsortnodup :
        ((entries.mergeSort fun a b => a.index ≤ b.index).map HistoryEntry.id).Nodup := by
      have hperm := (List.mergeSort_perm entries fun a b => a.index ≤ b.index).map HistoryEntry.id
      exact hperm.nodup_iff.mpr hnodup
    simp only [cleanupHistory]
    by_cases hlen : (entries.mergeSort fun a b => a.index ≤ b.index).length > 50
    · rw [if_pos hlen]
      rw [filter_not_id_mem_take _ hsortnodup]
      refine ⟨?_, rfl⟩
      simp only [List.length_drop]
      omega
    · rw [if_neg hlen]
      have h0 : (entries.mergeSort fun a b => a.index ≤ b.index).length - 50 = 0 := by omega
      rw [h0, List.drop_zero]
      exact ⟨by omega, rfl⟩

/-- Witness for C4 at concrete inputs: the fresh state, 51 identical
commits, and a singleton entry list. -/
theorem claim_C4_w :
    ((pushSnapshot initialHistoryState "a").history.length ≤ 50
      ∧ (handleUndo initialHistoryState).history.length ≤ 50
      ∧ (handleRedo initialHistoryState).history.length ≤ 50)
    ∧ ((pushAll initialHistoryState (List.replicate 51 "a")).history =
        (List.replicate 51 "a").drop ((List.replicate 51 "a").length - 50)
      ∧ (pushAll initialHistoryState (List.replicate 51 "a")).history.length = 50)
    ∧ ((cleanupHistory [⟨"k1", "p1", "d1", 0, 0⟩]).length ≤ 50
      ∧ cleanupHistory [⟨"k1", "p1", "d1", 0, 0⟩] =
          (([⟨"k1", "p1", "d1", 0, 0⟩] : List HistoryEntry).mergeSort
              fun a b => a.index ≤ b.index).drop
            ((([⟨"k1", "p1", "d1", 0, 0⟩] : List HistoryEntry).mergeSort
                fun a b => a.index ≤ b.index).length - 50)) := by
  refine ⟨?_, ?_, ?_⟩
  · obtain ⟨h1, h2, h3⟩ := claim_C4.1 initialHistoryState (by decide)
    exact ⟨h1 "a", h2, h3⟩
  · exact claim_C4.2.1 (List.replicate 51 "a") (by simp)
  · exact claim_C4.2.2 [⟨"k1", "p1", "d1", 0, 0⟩] (by simp)

theorem nearX_eq (p a b : Point) :
    nearX p a b = a.x +
      (if nearParam p a b < 0 then 0
       else if nearParam p a b > 1 then 1 else nearParam p a b) * (b.x - a.x) := by
  unfold nearX
  split_ifs <;> ring

theorem nearY_eq (p a b : Point) :
    nearY p a b = a.y +
      (if nearParam p a b < 0 then 0
       else if nearParam p a b > 1 then 1 else nearParam p a b) * (b.y - a.y) := by
  unfold nearY
  split_ifs <;> ring

theorem nearClamp_eq_segT (p a b : Point) :
    (if nearParam p a b < 0 then (0 : ℚ)
     else if nearParam p a b > 1 then 1 else nearParam p a b) = segT p a b := by
  unfold nearParam segT
  by_cases hlen : nearLenSq a b = 0
  · rw [if_neg (not_not_intro hlen), hlen, div_zero]
    rw [if_pos (by norm_num : (-1 : ℚ) < 0)]
    rw [min_eq_right (by norm_num : (0 : ℚ) ≤ 1), max_self]
  · rw [if_pos hlen]
    by_cases h1 : nearDot p a b / nearLenSq a b < 0
    · rw [if_pos h1, min_eq_right (by linarith), max_eq_left (le_of_lt h1)]
    · rw [if_neg h1]
      by_cases h2 : nearDot p a b / nearLenSq a b > 1
      · rw [if_pos h2, min_eq_left (le_of_lt h2), max_eq_right zero_le_one]
      · rw [if_neg h2, min_eq_right (not_lt.1 h2), max_eq_right (not_lt.1 h1)]

theorem isPointNearLine_eq_segDistSq (p a b : Point) (thr : ℚ) (hthr : 0 ≤ thr) :
    isPointNearLine p a b thr = decide (segDistSq p a b ≤ thr ^ 2) := by
  simp only [isPointNearLine]
  rw [decide_eq_true hthr, Bool.true_and]
  have hx : p.x - nearX p a b = p.x - (a.x + segT p a b * (b.x - a.x)) := by
    rw [nearX_eq, nearClamp_eq_segT]
  have hy : p.y - nearY p a b = p.y - (a.y + segT p a b * (b.y - a.y)) := by
    rw [nearY_eq, nearClamp_eq_segT]
  rw [hx, hy]
  have hd : (p.x - (a.x + segT p a b * (b.x - a.x))) * (p.x - (a.x + segT p a b * (b.x - a.x))) +
      (p.y - (a.y + segT p a b * (b.y - a.y))) * (p.y - (a.y + segT p a b * (b.y - a.y))) =
      segDistSq p a b := by
    unfold segDistSq
    ring
  rw [hd, show thr * thr = thr ^ 2 by ring]

theorem anySegmentNear_eq_zip (point : Point) (thr : ℚ) (hthr : 0 ≤ thr) :
    ∀ pts : List Point, anySegmentNear point pts thr =
      (pts.zip pts.tail).any fun pr => decide (segDistSq point pr.1 pr.2 ≤ thr ^ 2) := by
  intro pts
  induction pts with
  | nil => rfl
  | cons p1 tail ih =>
    cases tail with
    | nil => rfl
    | cons p2 rest =>
      show (isPointNearLine point p1 p2 thr || anySegmentNear point (p2 :: rest) thr) = _
      rw [isPointNearLine_eq_segDistSq point p1 p2 thr hthr, ih]
      rfl

theorem min_add_abs_sub (x y : ℚ) : min x y + |y - x| = max x y := by
  rcases le_total x y with h | h
  · rw [min_eq_left h, max_eq_right h, abs_of_nonneg (by linarith)]
    ring
  · rw [min_eq_right h, max_eq_left h, abs_of_nonpos (by linarith)]
    ring

theorem objectHit_eq_hitSpec (obj : DrawObject) (point : Point)
    (hwf : obj.type ≠ ObjType.stroke → obj.points.length = 2)
    (hw : 0 ≤ obj.width) :
    objectHit obj point = hitSpec obj point := by
  have hthr : 0 ≤ obj.width / 2 + 5 := by linarith
  cases htype : obj.type with
  | stroke =>
    simp only [objectHit, hitSpec, htype]
    exact anySegmentNear_eq_zip point _ hthr obj.points
  | line =>
    obtain ⟨p1, p2, hp⟩ := List.length_eq_two.1 (hwf (by rw [htype]; intro h; cases h))
    simp only [objectHit, hitSpec, htype, hp]
    rw [isPointNearLine_eq_segDistSq point p1 p2 _ hthr]
    simp
  | rectangle =>
    obtain ⟨p1, p2, hp⟩ := List.length_eq_two.1 (hwf (by rw [htype]; intro h; cases h))
    simp only [objectHit, hitSpec, htype, hp]
    rw [min_add_abs_sub p1.x p2.x, min_add_abs_sub p1.y p2.y]
    simp [Bool.decide_and, Bool.and_assoc]
  | circle =>
    obtain ⟨p1, p2, hp⟩ := List.length_eq_two.1 (hwf (by rw [htype]; intro h; cases h))
    simp only [objectHit, hitSpec, htype, hp]

theorem findFirstHit_eq_findP (point : Point) :
    ∀ objs : List DrawObject,
      (∀ o ∈ objs, o.type ≠ ObjType.stroke → o.points.length = 2) →
      (∀ o ∈ objs, 0 ≤ o.width) →
      findFirstHit objs point = objs.find? fun o => hitSpec o point := by
  intro objs
  induction objs with
  | nil => intro _ _; rfl
  | cons o rest ih =>
    intro h1 h2
    show (if objectHit o point then some o else findFirstHit rest point) = _
    rw [objectHit_eq_hitSpec o point (h1 o (by simp)) (h2 o (by simp))]
    cases hh : hitSpec o point
    · rw [if_neg (by simp [hh])]
      rw [List.find?_cons_of_neg _ (by simp [hh])]
      exact ih (fun x hx => h1 x (by simp [hx])) (fun x hx => h2 x (by simp [hx]))
    · rw [if_pos (by simp [hh])]
      rw [List.find?_cons_of_pos _ (by simp [hh])]

/-- C3. Hit-testing: under the data-model invariants (shape objects carry
exactly 2 points; widths are nonnegative), `findObjectAt` scans the
canonical list in reverse z-order and returns the first object hit by the
query point (or `null`), where "hit" is the claim's per-kind predicate
`hitSpec`: within `width/2 + 5` of a consecutive-pair segment
(point-to-segment distance, clamped to the endpoints) for strokes and
lines, inside the min/max-normalized bounding box for rectangles, and
within the radius (distance between the two defining points) of the
center (first point) for circles. -/
theorem claim_C3 (objs : List DrawObject) (point : Point)
    (hwf : ∀ o ∈ objs, o.type ≠ ObjType.stroke → o.points.length = 2)
    (hw : ∀ o ∈ objs, 0 ≤ o.width) :
    findObjectAt objs point = objs.reverse.find? fun o => hitSpec o point := by
  unfold findObjectAt
  exact findFirstHit_eq_findP point objs.reverse
    (fun o ho => hwf o (List.mem_reverse.1 ho))
    (fun o ho => hw o (List.mem_reverse.1 ho))

/-- Witness for C3 at the specification's concrete example: a single line
`(0,0)-(100,0)` of width 10 queried at `(50, 6)`. -/
theorem claim_C3_w :
    findObjectAt
        [{ id := "L", type := ObjType.line,
           points := [{ x := 0, y := 0, pressure := none },
                      { x := 100, y := 0, pressure := none }],
           color := "#000", width := 10, fill := some false, erase := some false,
           pressureOptions := none }]
        { x := 50, y := 6, pressure := none } =
      (List.reverse
        [{ id := "L", type := ObjType.line,
           points := [{ x := 0, y := 0, pressure := none },
                      { x := 100, y := 0, pressure := none }],
           color := "#000", width := 10, fill := some false, erase := some false,
           pressureOptions := none }]).find?
        fun o => hitSpec o { x := 50, y := 6, pressure := none } :=
  claim_C3 _ _ (by decide) (by decide)

/-- C8. Single-point strokes in the render pass: contrary to the claim,
a stroke object with exactly one point renders nothing. The early
`if (obj.points.length < 2) return;` fires before the single-point
filled-disc block, leaving that block unreachable, so only the six
context-setup assignments are issued and no path is drawn. -/
theorem claim_C8 (obj : DrawObject)
    (h1 : obj.type = ObjType.stroke) (h2 : obj.points.length = 1) :
    renderObjectCmds obj =
      [RenderCmd.setComposite (truthy obj.erase),
       RenderCmd.setStrokeStyle (if truthy obj.erase then "#000000" else obj.color),
       RenderCmd.setFillStyle (if truthy obj.erase then "#000000" else obj.color),
       RenderCmd.setLineWidth obj.width, RenderCmd.setLineCap, RenderCmd.setLineJoin] := by
  obtain ⟨p, hp⟩ : ∃ p, obj.points = [p] := List.length_eq_one.1 h2
  simp [renderObjectCmds, h1, hp]

/-- Witness for C8: a concrete one-point stroke renders only the six
setup commands, with no disc (no `beginPath`/`arc`/`fill`). -/
theorem claim_C8_w :
    renderObjectCmds
        { id := "s", type := ObjType.stroke,
          points := [{ x := 1, y := 2, pressure := some (1/2) }],
          color := "#123456", width := 8, fill := some false, erase := some false,
          pressureOptions := some { enabled := some true, minScale := some (3/10),
                                    maxScale := some 1 } } =
      [RenderCmd.setComposite false,
       RenderCmd.setStrokeStyle "#123456",
       RenderCmd.setFillStyle "#123456",
       RenderCmd.setLineWidth 8, RenderCmd.setLineCap, RenderCmd.setLineJoin] :=
  claim_C8 _ rfl rfl

theorem digitChar_isDigit {d : Nat} (h : d < 10) : isDigitCh (digitChar d) = true := by
  interval_cases d <;> decide

theorem digitVal_digitChar {d : Nat} (h : d < 10) : digitVal (digitChar d) = d := by
  interval_cases d <;> decide

theorem digit_ne_minus {c : Char} (h : isDigitCh c = true) : c ≠ '-' := by
  intro he
  subst he
  exact absurd h (by decide)

theorem digitsL_spec : ∀ fuel n : Nat, n ≤ fuel →
    Nat.ofDigits 10 (digitsL fuel n) = n ∧ ∀ d ∈ digitsL fuel n, d < 10 := by
  intro fuel
  induction fuel with
  | zero =>
    intro n h
    interval_cases n
    exact ⟨by simp [digitsL, Nat.ofDigits_nil], by simp [digitsL]⟩
  | succ fuel ih =>
    intro n h
    by_cases hn : n = 0
    · subst hn
      exact ⟨by simp [digitsL, Nat.ofDigits_nil], by simp [digitsL]⟩
    · have hdiv : n / 10 ≤ fuel := by
        have := Nat.div_lt_self (Nat.pos_of_ne_zero hn) (by norm_num : (1 : Nat) < 10)
        omega
      obtain ⟨ih1, ih2⟩ := ih (n / 10) hdiv
      simp only [digitsL, if_neg hn]
      refine ⟨?_, ?_⟩
      · rw [Nat.ofDigits_cons, ih1]
        omega
      · intro d hd
        rcases List.mem_cons.1 hd with h1 | h1
        · subst h1; exact Nat.mod_lt _ (by norm_num)
        · exact ih2 d h1

theorem foldl_digitChars (bs : List Nat) (h : ∀ d ∈ bs, d < 10) :
    ∀ acc, (bs.map digitChar).foldl (fun a c => a * 10 + digitVal c) acc =
      bs.foldl (fun a d => a * 10 + d) acc := by
  induction bs with
  | nil => intro acc; rfl
  | cons b t ih =>
    intro acc
    simp only [List.map_cons, List.foldl_cons]
    rw [digitVal_digitChar (h b (by simp))]
    exact ih (fun d hd => h d (by simp [hd])) _

theorem foldl_base10 (bs : List Nat) :
    ∀ acc, bs.foldl (fun a d => a * 10 + d) acc =
      acc * 10 ^ bs.length + Nat.ofDigits 10 bs.reverse := by
  induction bs with
  | nil => intro acc; simp [Nat.ofDigits_nil]
  | cons b t ih =>
    intro acc
    simp only [List.foldl_cons, List.length_cons, List.reverse_cons]
    rw [ih (acc * 10 + b), Nat.ofDigits_append]
    simp only [Nat.ofDigits_singleton, List.length_reverse]
    ring

theorem digitsToNat_natDigitChars (n : Nat) : digitsToNat (natDigitChars n) = n := by
  obtain ⟨h1, h2⟩ := digitsL_spec n n le_rfl
  unfold digitsToNat natDigitChars natDigits
  rw [← List.map_reverse]
  rw [foldl_digitChars _ (fun d hd => h2 d (List.mem_reverse.1 hd))]
  rw [foldl_base10]
  simp [List.reverse_reverse, h1]

theorem digitsToNat_pad (z : Nat) (ds : List Char) :
    digitsToNat (List.replicate z '0' ++ ds) = digitsToNat ds := by
  unfold digitsToNat
  rw [List.foldl_append]
  congr 1
  induction z with
  | zero => rfl
  | succ z ih =>
    rw [List.replicate_succ, List.foldl_cons]
    simpa using ih

theorem takeWhile_append_all {p : Char → Bool} :
    ∀ ds rest : List Char, (∀ c ∈ ds, p c = true) →
      (∀ c, rest.head? = some c → p c = false) →
      (ds ++ rest).takeWhile p = ds ∧ (ds ++ rest).dropWhile p = rest := by
  intro ds
  induction ds with
  | nil =>
    intro rest _ hrest
    cases rest with
    | nil => exact ⟨rfl, rfl⟩
    | cons c t =>
      have hc := hrest c rfl
      constructor
      · simp [List.takeWhile_cons, hc]
      · simp [List.dropWhile_cons, hc]
  | cons d t ih =>
    intro rest hds hrest
    have hd := hds d (by simp)
    obtain ⟨h1, h2⟩ := ih rest (fun c hc => hds c (by simp [hc])) hrest
    constructor
    · simp [List.takeWhile_cons, hd, h1]
    · simp [List.dropWhile_cons, hd, h2]

theorem renderMantissa_split (m k : Nat) (hk : 1 ≤ k) :
    ∃ I F : List Char,
      renderMantissa m k = I ++ '.' :: F ∧ I ≠ [] ∧
      (∀ c ∈ I, isDigitCh c = true) ∧ (∀ c ∈ F, isDigitCh c = true) ∧
      F.length = k ∧ digitsToNat (I ++ F) = m := by
  have hall : ∀ c ∈ padZeros (k + 1) (natDigitChars m), isDigitCh c = true := by
    intro c hc
    unfold padZeros at hc
    rcases List.mem_append.1 hc with h | h
    · rw [List.eq_of_mem_replicate h]; decide
    · unfold natDigitChars at h
      rw [List.mem_reverse] at h
      obtain ⟨d, hd, rfl⟩ := List.mem_map.1 h
      exact digitChar_isDigit ((digitsL_spec m m le_rfl).2 d hd)
  have hlen : k + 1 ≤ (padZeros (k + 1) (natDigitChars m)).length := by
    unfold padZeros
    rw [List.length_append, List.length_replicate]
    omega
  refine ⟨(padZeros (k + 1) (natDigitChars m)).take
            ((padZeros (k + 1) (natDigitChars m)).length - k),
          (padZeros (k + 1) (natDigitChars m)).drop
            ((padZeros (k + 1) (natDigitChars m)).length - k),
          rfl, ?_, ?_, ?_, ?_, ?_⟩
  · intro h
    have hlt := congrArg List.length h
    rw [List.length_take] at hlt
    simp only [List.length_nil] at hlt
    omega
  · intro c hc; exact hall c (List.mem_of_mem_take hc)
  · intro c hc; exact hall c (List.mem_of_mem_drop hc)
  · rw [List.length_drop]; omega
  · rw [List.take_append_drop,
      show padZeros (k + 1) (natDigitChars m) =
        List.replicate ((k + 1) - (natDigitChars m).length) '0' ++ natDigitChars m from rfl,
      digitsToNat_pad, digitsToNat_natDigitChars]

theorem decimal_value_eq (q : ℚ) (t : ℕ) (htmul : t * q.den = 10 ^ q.den) :
    ((q.num * (t : ℤ) : ℤ) : ℚ) / (10 : ℚ) ^ q.den = q := by
  have hden_ne : ((q.den : ℚ)) ≠ 0 := by
    exact_mod_cast q.den_nz
  have hpow_ne : ((10 : ℚ)) ^ q.den ≠ 0 := by positivity
  rw [div_eq_iff hpow_ne]
  have h10 : ((10 : ℚ)) ^ q.den = ((t : ℚ)) * (q.den : ℚ) := by
    have hc : ((t * q.den : ℕ) : ℚ) = ((10 ^ q.den : ℕ) : ℚ) := by rw [htmul]
    push_cast at hc
    linarith
  rw [h10]
  have hq_den : (q.num : ℚ) = q * (q.den : ℚ) := by
    have h := Rat.num_div_den q
    rw [div_eq_iff hden_ne] at h
    exact h
  push_cast
  calc (q.num : ℚ) * (t : ℚ) = (q * (q.den : ℚ)) * (t : ℚ) := by rw [← hq_den]
    _ = q * ((t : ℚ) * (q.den : ℚ)) := by ring

theorem parseNumber_rt (q : ℚ) (hq : decimalRatB q = true) (rest : List Char)
    (hrest : ∀ c, rest.head? = some c → isDigitCh c = false) :
    parseNumber (renderQ q ++ rest) = some (q, rest) := by
  have hdvd : q.den ∣ 10 ^ q.den := by simpa [decimalRatB] using hq
  have hden_pos : 0 < q.den := q.den_pos
  have htmul : (10 ^ q.den / q.den) * q.den = 10 ^ q.den := Nat.div_mul_cancel hdvd
  have hqval := decimal_value_eq q (10 ^ q.den / q.den) htmul
  obtain ⟨I, F, hsplit, hIne, hIdig, hFdig, hFlen, hval⟩ :=
    renderMantissa_split (q.num * ((10 ^ q.den / q.den : ℕ) : ℤ)).natAbs q.den hden_pos
  obtain ⟨c, I', hI⟩ := List.exists_cons_of_ne_nil hIne
  subst hI
  have hcdig : isDigitCh c = true := hIdig c (by simp)
  have hcne : c ≠ '-' := digit_ne_minus hcdig
  have hFne : F ≠ [] := by
    intro h
    rw [h] at hFlen
    simp at hFlen
    omega
  have hdot : ∀ c0 : Char, (('.' :: (F ++ rest) : List Char)).head? = some c0 →
      isDigitCh c0 = false := by
    intro c0 h
    simp only [List.head?_cons] at h
    injection h with h
    subst h
    decide
  obtain ⟨htake, hdrop⟩ := takeWhile_append_all (c :: I') ('.' :: (F ++ rest)) hIdig hdot
  obtain ⟨htake2, hdrop2⟩ := takeWhile_append_all F rest hFdig hrest
  have hrender : renderQ q =
      (if (q.num * ((10 ^ q.den / q.den : ℕ) : ℤ)) < 0 then ['-'] else []) ++
        renderMantissa (q.num * ((10 ^ q.den / q.den : ℕ) : ℤ)).natAbs q.den := rfl
  by_cases hmneg : (q.num * ((10 ^ q.den / q.den : ℕ) : ℤ)) < 0
  · -- negative mantissa: a leading '-' is rendered and parsed
    have hshape : renderQ q ++ rest = '-' :: ((c :: I') ++ ('.' :: (F ++ rest))) := by
      rw [hrender, if_pos hmneg, hsplit]
      simp [List.append_assoc]
    rw [hshape]
    simp only [parseNumber]
    rw [if_pos (show (('-' :: ((c :: I') ++ ('.' :: (F ++ rest)))
        : List Char)).head? = some '-' from rfl)]
    rw [if_pos (show (('-' :: ((c :: I') ++ ('.' :: (F ++ rest)))
        : List Char)).head? = some '-' from rfl)]
    simp only [List.tail_cons]
    rw [htake, hdrop]
    rw [if_neg (List.cons_ne_nil c I')]
    rw [if_pos (show (('.' :: (F ++ rest) : List Char)).head? = some '.' from rfl)]
    simp only [List.tail_cons]
    rw [htake2, hdrop2]
    rw [if_neg hFne]
    rw [hval, hFlen]
    have hcast : (((q.num * ((10 ^ q.den / q.den : ℕ) : ℤ)).natAbs : ℚ)) =
        -(((q.num * ((10 ^ q.den / q.den : ℕ) : ℤ) : ℤ)) : ℚ) := by
      have h1 : (((q.num * ((10 ^ q.den / q.den : ℕ) : ℤ)).natAbs : ℤ)) =
          -(q.num * ((10 ^ q.den / q.den : ℕ) : ℤ)) :=
        Int.ofNat_natAbs_of_nonpos (le_of_lt hmneg)
      calc (((q.num * ((10 ^ q.den / q.den : ℕ) : ℤ)).natAbs : ℚ))
          = ((((q.num * ((10 ^ q.den / q.den : ℕ) : ℤ)).natAbs : ℤ)) : ℚ) := by
            rw [Int.cast_natCast]
        _ = ((-(q.num * ((10 ^ q.den / q.den : ℕ) : ℤ)) : ℤ) : ℚ) := by rw [h1]
        _ = -(((q.num * ((10 ^ q.den / q.den : ℕ) : ℤ) : ℤ)) : ℚ) := by push_cast; ring
    rw [hcast]
    rw [neg_div, neg_neg, hqval]
  · -- nonnegative mantissa: no sign character
    have hshape : renderQ q ++ rest = (c :: I') ++ ('.' :: (F ++ rest)) := by
      rw [hrender, if_neg hmneg, hsplit]
      simp [List.append_assoc]
    rw [hshape]
    simp only [parseNumber]
    have hc1 : ¬((((c :: I') ++ ('.' :: (F ++ rest)) : List Char)).head? = some '-') := by
      intro h
      simp only [List.cons_append, List.head?_cons] at h
      injection h with h
      exact hcne h
    rw [if_neg hc1, if_neg hc1]
    rw [htake, hdrop]
    rw [if_neg (List.cons_ne_nil c I')]
    rw [if_pos (show (('.' :: (F ++ rest) : List Char)).head? = some '.' from rfl)]
    simp only [List.tail_cons]
    rw [htake2, hdrop2]
    rw [if_neg hFne]
    rw [hval, hFlen]
    have hcast : (((q.num * ((10 ^ q.den / q.den : ℕ) : ℤ)).natAbs : ℚ)) =
        (((q.num * ((10 ^ q.den / q.den : ℕ) : ℤ) : ℤ)) : ℚ) := by
      have h1 : (((q.num * ((10 ^ q.den / q.den : ℕ) : ℤ)).natAbs : ℤ)) =
          q.num * ((10 ^ q.den / q.den : ℕ) : ℤ) :=
        Int.natAbs_of_nonneg (not_lt.1 hmneg)
      calc (((q.num * ((10 ^ q.den / q.den : ℕ) : ℤ)).natAbs : ℚ))
          = ((((q.num * ((10 ^ q.den / q.den : ℕ) : ℤ)).natAbs : ℤ)) : ℚ) := by
            rw [Int.cast_natCast]
        _ = (((q.num * ((10 ^ q.den / q.den : ℕ) : ℤ) : ℤ)) : ℚ) := by rw [h1]
    rw [hcast, hqval]

theorem expects_append (lit : List Char) : ∀ rest, expects lit (lit ++ rest) = some rest := by
  induction lit with
  | nil => intro rest; rfl
  | cons c cs ih =>
    intro rest
    show expects (c :: cs) (c :: (cs ++ rest)) = some rest
    simp only [expects, if_pos rfl]
    exact ih rest

theorem expects_cons_ne {c d : Char} (h : c ≠ d) (l r : List Char) :
    expects (c :: l) (d :: r) = none := by
  simp [expects, h]

theorem expects_append_ne (a : List Char) {c d : Char} (h : c ≠ d) (l r : List Char) :
    expects (a ++ c :: l) (a ++ d :: r) = none := by
  induction a with
  | nil => exact expects_cons_ne h l r
  | cons x xs ih =>
    show expects (x :: (xs ++ c :: l)) (x :: (xs ++ d :: r)) = none
    simp only [expects, if_pos rfl]
    exact ih

theorem takeStringChars_rt : ∀ cs : List Char, (∀ c ∈ cs, SafeChar c = true) →
    ∀ rest, takeStringChars (cs ++ '"' :: rest) = some (cs, rest) := by
  intro cs
  induction cs with
  | nil =>
    intro _ rest
    rfl
  | cons c t ih =>
    intro hsafe rest
    have hc := hsafe c (by simp)
    simp only [SafeChar, Bool.and_eq_true, decide_eq_true_eq] at hc
    obtain ⟨⟨h1, h2⟩, h3⟩ := hc
    show takeStringChars (c :: (t ++ '"' :: rest)) = _
    simp only [takeStringChars]
    rw [if_neg h1, if_neg h2, if_neg (by omega)]
    rw [ih (fun x hx => hsafe x (by simp [hx])) rest]

theorem parseJString_rt (str : String) (hsafe : safeStringB str = true) (rest : List Char) :
    parseJString (renderJString str ++ rest) = some (str, rest) := by
  have hsafe' : ∀ c ∈ str.data, SafeChar c = true := by
    simpa [safeStringB, List.all_eq_true] using hsafe
  show parseJString ('"' :: (str.data ++ ['"']) ++ rest) = _
  simp only [parseJString, List.cons_append, List.head?_cons, List.tail_cons]
  rw [if_pos trivial]
  rw [show (str.data ++ ['"']) ++ rest = str.data ++ '"' :: rest by simp]
  rw [takeStringChars_rt str.data hsafe' rest]

theorem parseBool_rt (b : Bool) (rest : List Char) :
    parseBool (renderBool b ++ rest) = some (b, rest) := by
  cases b <;> rfl

theorem parseType_rt (t : ObjType) (rest : List Char) :
    parseType (renderType t ++ rest) = some (t, rest) := by
  cases t <;> rfl

theorem parseNumber_rt_comma (q : ℚ) (hq : decimalRatB q = true) (t : List Char) :
    parseNumber (renderQ q ++ ',' :: t) = some (q, ',' :: t) := by
  apply parseNumber_rt q hq
  intro c h
  rw [List.head?_cons] at h
  injection h with h
  subst h
  decide

theorem parseNumber_rt_brace (q : ℚ) (hq : decimalRatB q = true) (t : List Char) :
    parseNumber (renderQ q ++ '}' :: t) = some (q, '}' :: t) := by
  apply parseNumber_rt q hq
  intro c h
  rw [List.head?_cons] at h
  injection h with h
  subst h
  decide

theorem parsePoint_rt (p : Point) (hv : validPointB p = true) (rest : List Char) :
    parsePoint (renderPoint p ++ rest) = some (p, rest) := by
  cases p with
  | mk px py ppr =>
    simp only [validPointB, Bool.and_eq_true] at hv
    obtain ⟨⟨hx, hy⟩, hpr⟩ := hv
    cases ppr with
    | none =>
      simp only [parsePoint, renderPoint, List.cons_append, List.nil_append, List.append_eq,
        List.append_assoc, List.head?_cons, List.tail_cons, Option.some.injEq,
        Option.bind_eq_bind, Option.some_bind, Char.reduceEq, reduceIte, if_true, if_false,
        expects, fieldKey, optField, renderOptField,
        parseNumber_rt_comma px hx, parseNumber_rt_brace py (by simpa using hy)]
    | some pr =>
      have hprd : decimalRatB pr = true := by simpa [decimalOptB] using hpr
      simp only [parsePoint, renderPoint, List.cons_append, List.nil_append, List.append_eq,
        List.append_assoc, List.head?_cons, List.tail_cons, Option.some.injEq,
        Option.bind_eq_bind, Option.some_bind, Char.reduceEq, reduceIte, if_true, if_false,
        expects, fieldKey, optField, renderOptField,
        parseNumber_rt_comma px hx, parseNumber_rt_comma py (by simpa using hy),
        parseNumber_rt_brace pr hprd]

set_option maxHeartbeats 1600000 in
theorem parsePO_rt (po : PressureSensitivityOptions) (hv : validPOB po = true)
    (rest : List Char) :
    parsePO (renderPO po ++ rest) = some (po, rest) := by
  cases po with
  | mk en mn mx =>
    simp only [validPOB, Bool.and_eq_true] at hv
    obtain ⟨⟨hen, hmn⟩, hmx⟩ := hv
    cases en with
    | none => simp at hen
    | some eb =>
      cases mn with
      | none => simp at hmn
      | some mq =>
        cases mx with
        | none => simp at hmx
        | some xq =>
          have hmq : decimalRatB mq = true := by simpa using hmn
          have hxq : decimalRatB xq = true := by simpa using hmx
          simp only [parsePO, renderPO, List.cons_append, List.nil_append, List.append_eq,
            List.append_assoc, List.head?_cons, List.tail_cons, Option.some.injEq,
            Option.bind_eq_bind, Option.some_bind, Char.reduceEq, reduceIte, if_true, if_false,
            expects, fieldKey, optField, renderOptField, parseBool_rt,
            parseNumber_rt_comma mq hmq, parseNumber_rt_brace xq hxq]

theorem parseSepList_rt {α : Type} (pElem : List Char → Option (α × List Char))
    (rElem : α → List Char) :
    ∀ l : List α, l ≠ [] →
      (∀ a ∈ l, ∀ rest, pElem (rElem a ++ rest) = some (a, rest)) →
      ∀ fuel : Nat, l.length ≤ fuel →
      ∀ rest, parseSepList pElem fuel (sepElems rElem l ++ ']' :: rest) = some (l, rest) := by
  intro l
  induction l with
  | nil => intro h; exact absurd rfl h
  | cons a t ih =>
    intro _ helem fuel hfuel rest
    cases t with
    | nil =>
      cases fuel with
      | zero => simp at hfuel
      | succ fuel =>
        show parseSepList pElem (fuel + 1) (rElem a ++ ']' :: rest) = _
        simp only [parseSepList, helem a (by simp), List.head?_cons, List.tail_cons,
          Option.some.injEq, Char.reduceEq, reduceIte, if_true, if_false]
    | cons b t2 =>
      cases fuel with
      | zero => simp at hfuel
      | succ fuel =>
        show parseSepList pElem (fuel + 1)
          ((rElem a ++ ',' :: sepElems rElem (b :: t2)) ++ ']' :: rest) = _
        rw [show (rElem a ++ ',' :: sepElems rElem (b :: t2)) ++ ']' :: rest =
          rElem a ++ ',' :: (sepElems rElem (b :: t2) ++ ']' :: rest) by simp]
        simp only [parseSepList, helem a (by simp), List.head?_cons, List.tail_cons,
          Option.some.injEq, Char.reduceEq, reduceIte, if_true, if_false]
        rw [ih (List.cons_ne_nil _ _) (fun x hx rest' => helem x (by simp [hx]) rest') fuel
          (by simp only [List.length_cons] at hfuel ⊢; omega) rest]

theorem parseArray_rt {α : Type} (pElem : List Char → Option (α × List Char))
    (rElem : α → List Char) (l : List α)
    (helem : ∀ a ∈ l, ∀ rest, pElem (rElem a ++ rest) = some (a, rest))
    (hfirst : ∀ a ∈ l, ∃ c cs, rElem a = c :: cs ∧ c ≠ ']')
    (fuel : Nat) (hfuel : l.length ≤ fuel) (rest : List Char) :
    parseArray pElem fuel (renderArray rElem l ++ rest) = some (l, rest) := by
  cases l with
  | nil =>
    show parseArray pElem fuel (('[' :: ([] ++ [']'])) ++ rest) = _
    simp [parseArray]
  | cons a t =>
    obtain ⟨c, cs, hcs, hcne⟩ := hfirst a (by simp)
    have hshape : renderArray rElem (a :: t) ++ rest =
        '[' :: (sepElems rElem (a :: t) ++ ']' :: rest) := by
      simp [renderArray, List.append_assoc]
    rw [hshape]
    have hhead : (sepElems rElem (a :: t) ++ ']' :: rest).head? = some c := by
      cases t <;> simp [sepElems, hcs]
    simp only [parseArray, List.head?_cons, List.tail_cons, Option.some.injEq,
      Char.reduceEq, reduceIte, if_true, if_false]
    rw [if_neg (by rw [hhead]; intro h; injection h with h; exact hcne h)]
    exact parseSepList_rt pElem rElem (a :: t) (List.cons_ne_nil _ _) helem fuel hfuel rest

theorem sepElems_length_ge {α : Type} (rElem : α → List Char) :
    ∀ l : List α, (∀ a ∈ l, rElem a ≠ []) → l.length ≤ (sepElems rElem l).length := by
  intro l
  induction l with
  | nil => simp [sepElems]
  | cons a t ih =>
    intro hne
    have h1 : 1 ≤ (rElem a).length := by
      have hna := hne a (by simp)
      cases h : rElem a with
      | nil => exact absurd h hna
      | cons _ _ => simp
    cases t with
    | nil =>
      show 1 ≤ (sepElems rElem [a]).length
      simpa [sepElems] using h1
    | cons b t2 =>
      have h2 := ih (fun x hx => hne x (by simp [hx]))
      show (a :: b :: t2).length ≤ (rElem a ++ ',' :: sepElems rElem (b :: t2)).length
      simp only [List.length_cons, List.length_append] at h2 ⊢
      omega

theorem elem_length_le_sepElems {α : Type} (rElem : α → List Char) :
    ∀ (l : List α) (a : α), a ∈ l → (rElem a).length ≤ (sepElems rElem l).length := by
  intro l
  induction l with
  | nil => intro a ha; cases ha
  | cons x t ih =>
    intro a ha
    cases t with
    | nil =>
      rcases List.mem_cons.1 ha with h | h
      · subst h; simp [sepElems]
      · cases h
    | cons b t2 =>
      rcases List.mem_cons.1 ha with h | h
      · subst h
        show (rElem a).length ≤ (rElem a ++ ',' :: sepElems rElem (b :: t2)).length
        simp only [List.length_append, List.length_cons]
        omega
      · have := ih a h
        show (rElem a).length ≤ (rElem x ++ ',' :: sepElems rElem (b :: t2)).length
        simp only [List.length_append, List.length_cons] at this ⊢
        omega

theorem renderPoint_ne_nil (p : Point) : renderPoint p ≠ [] := by
  intro h
  simp [renderPoint] at h

theorem renderObjectJson_ne_nil (o : DrawObject) : renderObjectJson o ≠ [] := by
  intro h
  simp [renderObjectJson] at h

theorem points_length_le_renderObject (o : DrawObject) :
    o.points.length ≤ (renderObjectJson o).length := by
  have h1 : o.points.length ≤ (renderArray renderPoint o.points).length := by
    have h2 := sepElems_length_ge renderPoint o.points (fun a _ => renderPoint_ne_nil a)
    simp only [renderArray, List.length_cons, List.length_append]
    omega
  unfold renderObjectJson
  simp only [List.length_cons, List.length_append]
  omega

set_option maxHeartbeats 3200000 in
theorem parseObjectJson_rt (obj : DrawObject) (hv : validObjectB obj = true) (fuel : Nat)
    (hfuel : obj.points.length ≤ fuel) (rest : List Char) :
    parseObjectJson fuel (renderObjectJson obj ++ rest) = some (obj, rest) := by
  cases obj with
  | mk oid oty opts ocol ow ofill oerase opo =>
    simp only [validObjectB, Bool.and_eq_true] at hv
    obtain ⟨⟨⟨⟨⟨⟨hid, hcol⟩, hw⟩, hpts⟩, hfill⟩, herase⟩, hpo⟩ := hv
    simp only at hfuel
    cases ofill with
    | none => simp at hfill
    | some fb =>
      cases oerase with
      | none => simp at herase
      | some eb =>
        have hptsrule : ∀ a ∈ opts, ∀ r, parsePoint (renderPoint a ++ r) = some (a, r) := by
          intro a ha r
          apply parsePoint_rt
          have := List.all_eq_true.1 hpts a ha
          simpa using this
        have hfirstp : ∀ a ∈ opts, ∃ c cs, renderPoint a = c :: cs ∧ c ≠ ']' := by
          intro a _
          exact ⟨'{', _, rfl, by decide⟩
        have harr := parseArray_rt parsePoint renderPoint opts hptsrule hfirstp fuel hfuel
        have hidr := parseJString_rt oid hid
        have hcolr := parseJString_rt ocol hcol
        cases opo with
        | none =>
          simp only [parseObjectJson, renderObjectJson, List.cons_append, List.nil_append,
            List.append_eq, List.append_assoc, List.head?_cons, List.tail_cons,
            Option.some.injEq, Option.bind_eq_bind, Option.some_bind, Char.reduceEq,
            reduceIte, if_true, if_false, expects, fieldKey, optField, renderOptField,
            hidr, hcolr, parseType_rt, harr, parseNumber_rt_comma ow hw, parseBool_rt]
        | some po =>
          have hpov : validPOB po = true := by simpa using hpo
          have hpor := parsePO_rt po hpov
          simp only [parseObjectJson, renderObjectJson, List.cons_append, List.nil_append,
            List.append_eq, List.append_assoc, List.head?_cons, List.tail_cons,
            Option.some.injEq, Option.bind_eq_bind, Option.some_bind, Char.reduceEq,
            reduceIte, if_true, if_false, expects, fieldKey, optField, renderOptField,
            hidr, hcolr, parseType_rt, harr, parseNumber_rt_comma ow hw, parseBool_rt, hpor]

theorem renderArray_length_eq {α : Type} (rElem : α → List Char) (l : List α) :
    (renderArray rElem l).length = (sepElems rElem l).length + 2 := by
  simp only [renderArray, List.length_cons, List.length_append, List.length_nil]

/-- C6. Serialization round-trip: for every valid canonical object list
(safe id/color strings, finite-decimal numbers, `fill`/`erase` present
and a full `pressureOptions` snapshot when any, as `startObject`
produces), deserializing the string produced by `serializeObjects`
yields a structurally equal object list. -/
theorem claim_C6 (objs : List DrawObject) (hv : objs.all validObjectB = true) :
    deserializeObjects (serializeObjects objs) = objs := by
  have hvs : ∀ o ∈ objs, validObjectB o = true := by
    intro o ho
    simpa using List.all_eq_true.1 hv o ho
  have hone : ∀ o ∈ objs, renderObjectJson o ≠ [] :=
    fun o _ => renderObjectJson_ne_nil o
  have hsep := sepElems_length_ge renderObjectJson objs hone
  have hRlen := renderArray_length_eq renderObjectJson objs
  have hobj : ∀ o ∈ objs, ∀ r,
      parseObjectJson ((renderArray renderObjectJson objs).length + 1)
        (renderObjectJson o ++ r) = some (o, r) := by
    intro o ho r
    apply parseObjectJson_rt o (hvs o ho)
    have h1 := points_length_le_renderObject o
    have h2 := elem_length_le_sepElems renderObjectJson objs o ho
    omega
  have hfirst : ∀ o ∈ objs, ∃ c cs, renderObjectJson o = c :: cs ∧ c ≠ ']' := by
    intro o _
    exact ⟨'{', _, rfl, by decide⟩
  have hlenobjs : objs.length ≤ (renderArray renderObjectJson objs).length + 1 := by
    omega
  have harr := parseArray_rt (parseObjectJson ((renderArray renderObjectJson objs).length + 1))
    renderObjectJson objs hobj hfirst ((renderArray renderObjectJson objs).length + 1)
    hlenobjs []
  rw [List.append_nil] at harr
  show (parseObjectsString (serializeObjects objs)).getD [] = objs
  rw [show parseObjectsString (serializeObjects objs) =
      match parseArray (parseObjectJson ((renderArray renderObjectJson objs).length + 1))
        ((renderArray renderObjectJson objs).length + 1)
        (renderArray renderObjectJson objs) with
      | some (objs', []) => some objs'
      | _ => none from rfl]
  rw [harr]
  rfl

/-- Witness for C6: a concrete two-point pressured stroke round-trips. -/
theorem claim_C6_w :
    deserializeObjects (serializeObjects
        [{ id := "a1", type := ObjType.stroke,
           points := [{ x := 1, y := 2, pressure := some 1 },
                      { x := 3, y := 4, pressure := none }],
           color := "#112233", width := 8, fill := some false, erase := some false,
           pressureOptions := some { enabled := some true, minScale := some 2,
                                     maxScale := some 3 } }]) =
      [{ id := "a1", type := ObjType.stroke,
         points := [{ x := 1, y := 2, pressure := some 1 },
                    { x := 3, y := 4, pressure := none }],
         color := "#112233", width := 8, fill := some false, erase := some false,
         pressureOptions := some { enabled := some true, minScale := some 2,
                                   maxScale := some 3 } }] :=
  claim_C6 _ (by decide)

/-- C7. Defensive decode: `deserializeObjects` is a total function (the
`try`/`catch` in the source recovers from every parse failure), and on
any input whose parse fails (malformed input) it yields the empty
object list. -/
theorem claim_C7 (s : String) (h : parseObjectsString s = none) :
    deserializeObjects s = [] := by
  simp [deserializeObjects, h]

/-- Witness for C7 at a concrete malformed input. -/
theorem claim_C7_w : deserializeObjects (String.mk ['x', 'y']) = [] :=
  claim_C7 (String.mk ['x', 'y']) (by decide)

end CopyCanvas
